import Mathlib

/-!
Verification development for the VoiceTrace repository.

Shallow embedding of the Python sources:
  - `anonymization.py` : redaction codec (`anonymize` / `deanonymize`)
  - `llm.py`           : local LLM retry loop and Claude routing policy
  - `process_audio.py` : the processing pipeline `AudioProcessor.process`
  - `metrics_report.py`: the report average helper
Strings are modelled as Lean `String` (lists of characters); Python's
ASCII-range case operations (`str.lower`, `re.IGNORECASE` over the fixed
ASCII tables) are modelled with an explicit ASCII lowercase map.
Wall-clock durations are not representable, so the `durations_sec` dict is
modelled by its key list (insertion ordered, as in a Python dict); floats
are modelled as exact rationals.
-/

namespace VoiceTrace

/-- ASCII lowercase map: models Python `str.lower` / `re.IGNORECASE`
matching on the ASCII strings appearing in the sources. -/
def lowerChar (c : Char) : Char :=
  if 'A' ≤ c ∧ c ≤ 'Z' then Char.ofNat (c.toNat + 32) else c

def lowerStr (s : String) : String := String.mk (s.toList.map lowerChar)

/-- Case-insensitive character comparison (for `re.IGNORECASE`). -/
def lowEq (a b : Char) : Bool := lowerChar a == lowerChar b

/-- Does pattern `p` match at the start of `s`, comparing characters with
`eqc`?  Used to model both `str.replace` (exact equality) and
`re.IGNORECASE` literal patterns (`lowEq`). -/
def matchAtBy (eqc : Char → Char → Bool) : List Char → List Char → Bool
  | [], _ => true
  | _ :: _, [] => false
  | p₀ :: ps, s₀ :: ss => eqc p₀ s₀ && matchAtBy eqc ps ss

/-- Does pattern `p` occur anywhere in `s` (leftmost scan, as
`re.search` / Python `in`)? -/
def occursBy (eqc : Char → Char → Bool) (p : List Char) : List Char → Bool
  | [] => p.isEmpty
  | c :: cs => matchAtBy eqc p (c :: cs) || occursBy eqc p cs

/-- Fuel-indexed scanner underlying `replaceBy` (structural recursion on
the fuel so that the kernel can evaluate it). -/
def replaceByF (eqc : Char → Char → Bool) (p r : List Char) : Nat → List Char → List Char
  | _, [] => []
  | 0, s => s
  | fuel + 1, c :: cs =>
    if matchAtBy eqc p (c :: cs) then
      r ++ replaceByF eqc p r fuel (cs.drop (p.length - 1))
    else
      c :: replaceByF eqc p r fuel cs

/-- Replace every leftmost non-overlapping occurrence of `p` by `r`,
scanning left to right: models `re.sub` (with a literal pattern) and
`str.replace`. -/
def replaceBy (eqc : Char → Char → Bool) (p r : List Char) (s : List Char) : List Char :=
  replaceByF eqc p r s.length s

/-- Python `s.strip()`: drop whitespace from both ends. -/
def pyStrip (s : String) : String :=
  String.mk (((s.toList.dropWhile Char.isWhitespace).reverse.dropWhile Char.isWhitespace).reverse)

/-- Python `text.split()`: split on whitespace runs, dropping empties. -/
def pyWords (s : String) : List String :=
  (s.toList.splitOnP Char.isWhitespace).map String.mk |>.filter (fun w => w ≠ "")

/-- Python `needle in hay` substring test. -/
def strContains (hay needle : String) : Bool :=
  occursBy (· == ·) needle.toList hay.toList

/- ------------------------------------------------------------------
   anonymization.py
   ------------------------------------------------------------------ -/

/-- `ANONYMIZATION_MAP` from `anonymization.py`, in declaration order
(Python dicts iterate in insertion order). -/
def ANONYMIZATION_MAP : List (String × String) :=
  [("Anthropic", "[COMPANY_A]"),
   ("Google", "[COMPANY_B]"),
   ("OpenAI", "[COMPANY_C]"),
   ("Obsidian", "[TOOL_A]"),
   ("Ollama", "[TOOL_B]")]

/-- `anonymize(text)`: for each table entry in order, if the sensitive term
occurs case-insensitively in the accumulated text, replace every
occurrence by the placeholder and record `(placeholder, original)` in the
reverse map (modelled as an insertion-ordered association list). -/
def anonymize (text : String) : String × List (String × String) :=
  ANONYMIZATION_MAP.foldl
    (fun acc entry =>
      if occursBy lowEq entry.1.toList acc.1.toList then
        (String.mk (replaceBy lowEq entry.1.toList entry.2.toList acc.1.toList),
         acc.2 ++ [(entry.2, entry.1)])
      else acc)
    (text, [])

/-- `deanonymize(text, reverse_map)`: replace each placeholder by its
original term, iterating the map in insertion order. -/
def deanonymize (text : String) (reverse_map : List (String × String)) : String :=
  reverse_map.foldl
    (fun s e => String.mk (replaceBy (· == ·) e.1.toList e.2.toList s.toList)) text

/- ------------------------------------------------------------------
   llm.py : LLMProcessor._local_chat_completion
   ------------------------------------------------------------------ -/

/-- Outcome of a single HTTP attempt against the local backend: either the
request machinery raises (`requests.RequestException`, carrying `str(exc)`),
or a payload arrives whose extracted `content` field is the given string. -/
inductive LLMAttempt
  | exn (msg : String)
  | response (content : String)

/-- The body of one loop iteration of `_local_chat_completion`: an
exception is a failure; a response is accepted only when its content is
non-empty after `strip()`, in which case the stripped content is returned,
and otherwise raises `ValueError("Local LLM returned empty content")`. -/
def attemptResult (a : LLMAttempt) : Except String String :=
  match a with
  | .exn m => Except.error m
  | .response c =>
    if pyStrip c = "" then Except.error "Local LLM returned empty content"
    else Except.ok (pyStrip c)

/-- The message recorded in `last_error` when an attempt fails. -/
def attemptErrMsg (a : LLMAttempt) : String :=
  match a with
  | .exn m => m
  | .response _ => "Local LLM returned empty content"

/-- The `for attempt in range(1, attempts + 1)` loop: run attempts
numbered from `attempt` while `remaining` attempts are left, returning the
first accepted content, or the last failure once exhausted.  (The retry
notice print and the backoff sleep are side effects with no bearing on the
result.) -/
def attemptLoop (backend : Nat → LLMAttempt) (attempt : Nat) : Nat → Except String String
  | 0 => Except.error ""
  | 1 => attemptResult (backend attempt)
  | rem + 2 =>
    match attemptResult (backend attempt) with
    | Except.ok c => Except.ok c
    | Except.error _ => attemptLoop backend (attempt + 1) (rem + 1)

/-- `_local_chat_completion`: the reachability probe `_check_local_llm`
runs first and its exception propagates unretried; then
`attempts = max(1, Config.LOCAL_LLM_RETRIES + 1)` attempts are made and,
after exhaustion, a terminal `RuntimeError` embeds the operation name and
the last underlying failure. -/
def local_chat_completion (check : Except String Unit) (retries : Nat)
    (operation : String) (backend : Nat → LLMAttempt) : Except String String :=
  match check with
  | Except.error e => Except.error e
  | Except.ok _ =>
    let attempts := max 1 (retries + 1)
    match attemptLoop backend 1 attempts with
    | Except.ok c => Except.ok c
    | Except.error last =>
      Except.error ("Local LLM " ++ operation ++ " failed after " ++
        toString attempts ++ " attempts: " ++ last)

/- ------------------------------------------------------------------
   llm.py : LLMProcessor.should_use_claude
   ------------------------------------------------------------------ -/

/-- The configuration bits `should_use_claude` reads:
`Config.USE_CLAUDE_FOR_COMPLEX`, and whether `self.anthropic_client` was
constructed (which happens exactly when `Config.ANTHROPIC_API_KEY` is
set). -/
structure LLMConfig where
  USE_CLAUDE_FOR_COMPLEX : Bool
  has_anthropic_client : Bool

/-- An apostrophe, spelled via its code point. -/
def apos : String := (Char.ofNat 39).toString

/-- The phrase list of `should_use_claude`, in source order. -/
def claudePhrases : List String :=
  ["break down",
   "step by step",
   "what should i do",
   "what" ++ apos ++ "s the best way",
   "plan",
   "depends on",
   "blocked by",
   "sequence"]

/-- `should_use_claude(text)` from `llm.py`. -/
def should_use_claude (cfg : LLMConfig) (text : String) : Bool :=
  if !cfg.USE_CLAUDE_FOR_COMPLEX || !cfg.has_anthropic_client then false
  else
    decide (60 < (pyWords text).length) ||
      claudePhrases.any (fun p => strContains (lowerStr text) p)

/-- Modelled from the spec wording of the Routing Policy (claim C5): the
phrase set in the order the spec lists it. -/
def specRemotePhrases : List String :=
  ["break down",
   "step by step",
   "depends on",
   "blocked by",
   "sequence",
   "plan",
   "what should i do",
   "what" ++ apos ++ "s the best way"]

/-- Modelled from the spec wording of the Routing Policy (claim C5):
false when remote breakdown is disabled or no credential exists, otherwise
true iff the whitespace word count exceeds 60 or the lowercased text
contains one of the fixed phrases. -/
def specShouldUseRemote (cfg : LLMConfig) (text : String) : Bool :=
  if cfg.USE_CLAUDE_FOR_COMPLEX = false ∨ cfg.has_anthropic_client = false then false
  else
    decide (60 < (pyWords text).length) ||
      specRemotePhrases.any (fun p => strContains (lowerStr text) p)

/- ------------------------------------------------------------------
   process_audio.py : AudioProcessor.process
   ------------------------------------------------------------------ -/

/-- Python's banker-rounded `round(x)` on an exact rational. -/
def roundHalfEven (x : Rat) : Int :=
  let f := x.floor
  let r := x - (f : Rat)
  if r < 1 / 2 then f
  else if 1 / 2 < r then f + 1
  else if f % 2 = 0 then f else f + 1

/-- Python `round(x, 4)` on an exact rational. -/
def pyRound4 (x : Rat) : Rat := ((roundHalfEven (x * 10000) : Int) : Rat) / 10000

/-- Setting a key in the `durations_sec` dict, modelled as its
insertion-ordered key list (values are wall-clock timings, dropped from
the model); overwriting an existing key keeps its position. -/
def addKey (ks : List String) (k : String) : List String :=
  if k ∈ ks then ks else ks ++ [k]

/-- The observable fields of the `metrics` dict that becomes the persisted
RunRecord.  Fields that are pure path strings of the host filesystem
(`audio_path`, `capture_file`, `session_dir`, `raw_transcript_path`,
`clean_transcript_path`, `tasks_path`) and the wall-clock `timestamp` are
not modelled. -/
structure RunRecord where
  session_id : String
  raw_only : Bool
  clean_only : Bool
  status : String
  durations : List String
  transcription_method : Option String
  breakdown_model : Option String
  raw_chars : Option Nat
  raw_words : Option Nat
  clean_chars : Option Nat
  clean_words : Option Nat
  compression_ratio : Option Rat
  error : Option String
  archived_audio_path : Option String
deriving DecidableEq, Repr

/-- One markdown capture entry appended by `_append_capture`. -/
structure Capture where
  timestamp : String
  audio : String
  raw : String
  clean : String
  breakdown : String
  method : String
  model : String
deriving DecidableEq, Repr

/-- The f-string template of `_append_capture`, verbatim. -/
def renderCapture (c : Capture) : String :=
  "\n## " ++ c.timestamp ++
  "\n**Audio:** [[" ++ c.audio ++ "]]" ++
  "\n**Transcription:** " ++ c.method ++ " | **Breakdown:** " ++ c.model ++
  "\n\n**Raw Transcription:**\n> " ++ c.raw ++
  "\n\n**Cleaned:**\n" ++ c.clean ++
  "\n\n**Tasks:**\n" ++ c.breakdown ++
  "\n\n---\n"

/-- Outcomes of every effectful collaborator one `process` invocation can
touch.  Each filesystem or network step either succeeds or raises with the
given `str(exc)` message; a raising write is modelled as appending
nothing (one `open`+`write` per append). -/
structure Env where
  /-- `self.transcriber.transcribe`: `(raw_text, transcription_method)`. -/
  transcribe : Except String (String × String)
  /-- `_save_raw_transcript` (both raw-store and session-dir writes). -/
  saveRawTranscript : Except String Unit
  /-- `_check_local_llm` reachability probe inside the cleanup call. -/
  localCheck : Except String Unit
  /-- `Config.LOCAL_LLM_RETRIES`. -/
  retries : Nat
  /-- the local backend's behaviour on cleanup attempt number `n`. -/
  cleanupBackend : Nat → LLMAttempt
  /-- `_write_text(session_dir / "cleaned_transcript.txt", ...)`. -/
  writeCleanTranscript : Except String Unit
  /-- `self.llm.breakdown_tasks`: `(breakdown, model_used)`. -/
  breakdownTasks : Except String (String × String)
  /-- `_write_text(session_dir / "tasks_breakdown.md", ...)`. -/
  writeBreakdown : Except String Unit
  /-- the append to `capture.md` in `_append_capture`. -/
  appendCapture : Except String Unit
  /-- `datetime.now().strftime("%Y-%m-%d %H:%M")` in `_append_capture`. -/
  nowCapture : String
  /-- `_archive_audio`: `shutil.move` to `processed/`, returning the
  destination name. -/
  archiveAudio : Except String String
  /-- `_write_session_metadata` on the success path. -/
  writeSessionMeta : Except String Unit
  /-- `_append_metrics` on the success path. -/
  appendMetrics : Except String Unit
  /-- `_log_event` (monthly JSONL event log). -/
  logEvent : Except String Unit
  /-- `_write_session_metadata` inside the `except` handler. -/
  writeMetaOnFail : Except String Unit
  /-- `_append_metrics` inside the `except` handler. -/
  appendMetricsOnFail : Except String Unit

/-- Everything observable about one `process` invocation. -/
structure ProcResult where
  /-- `.ok b` = the boolean return; `.error e` = an exception propagated
  out of `process`. -/
  retval : Except String Bool
  /-- final state of the `metrics` dict (`none` iff it was never built). -/
  record : Option RunRecord
  /-- RunRecords appended to `logs/metrics.jsonl`, in order. -/
  appended : List RunRecord
  /-- capture entries appended to `capture.md`. -/
  captures : List Capture
  /-- whether the source audio file was moved into `processed/`. -/
  archived : Bool
  /-- whether the session directory was created. -/
  sessionCreated : Bool
  /-- whether the transcription stage was entered. -/
  transcribeAttempted : Bool
  /-- whether a breakdown backend client was invoked. -/
  breakdownAttempted : Bool

/-- The `except Exception` handler at the bottom of `process`: set
`status="failed"`, record the error string and the total duration, write
the session metadata and append the record; an exception raised by those
two writes propagates out of `process`. -/
def failPath (env : Env) (r : RunRecord) (e : String)
    (appendedSoFar : List RunRecord) (caps : List Capture)
    (archived transcribeAttempted breakdownAttempted : Bool) : ProcResult :=
  let r' := { r with
    status := "failed"
    error := some e
    durations := addKey r.durations "total" }
  match env.writeMetaOnFail with
  | Except.error m =>
    { retval := Except.error m, record := some r', appended := appendedSoFar,
      captures := caps, archived := archived, sessionCreated := true,
      transcribeAttempted := transcribeAttempted, breakdownAttempted := breakdownAttempted }
  | Except.ok _ =>
    match env.appendMetricsOnFail with
    | Except.error m =>
      { retval := Except.error m, record := some r', appended := appendedSoFar,
        captures := caps, archived := archived, sessionCreated := true,
        transcribeAttempted := transcribeAttempted, breakdownAttempted := breakdownAttempted }
    | Except.ok _ =>
      { retval := Except.ok false, record := some r', appended := appendedSoFar ++ [r'],
        captures := caps, archived := archived, sessionCreated := true,
        transcribeAttempted := transcribeAttempted, breakdownAttempted := breakdownAttempted }

/-- Steps 4 and the final archive/persist sequence shared by the
clean-only and full paths (`process` lines 111-138). -/
def captureAndFinish (env : Env) (r4 : RunRecord)
    (audio_name raw_text clean_text breakdown method model_used : String)
    (bdAttempted : Bool) : ProcResult :=
  match env.appendCapture with
  | Except.error e => failPath env r4 e [] [] false true bdAttempted
  | Except.ok _ =>
    let cap : Capture :=
      { timestamp := env.nowCapture, audio := audio_name, raw := raw_text,
        clean := clean_text, breakdown := breakdown, method := method,
        model := model_used }
    let r5 := { r4 with durations := addKey r4.durations "capture_write" }
    match env.archiveAudio with
    | Except.error e => failPath env r5 e [] [cap] false true bdAttempted
    | Except.ok dest =>
      let r6 := { r5 with
        archived_audio_path := some dest
        status := "success"
        durations := addKey r5.durations "total" }
      match env.writeSessionMeta with
      | Except.error e => failPath env r6 e [] [cap] true true bdAttempted
      | Except.ok _ =>
        match env.appendMetrics with
        | Except.error e => failPath env r6 e [] [cap] true true bdAttempted
        | Except.ok _ =>
          match env.logEvent with
          | Except.error e => failPath env r6 e [r6] [cap] true true bdAttempted
          | Except.ok _ =>
            { retval := Except.ok true, record := some r6, appended := [r6],
              captures := [cap], archived := true, sessionCreated := true,
              transcribeAttempted := true, breakdownAttempted := bdAttempted }

/-- `AudioProcessor.process`, stage by stage. -/
def process (env : Env) (audio_name session_id : String)
    (raw_only clean_only : Bool) : ProcResult :=
  if raw_only && clean_only then
    { retval := Except.error "raw_only and clean_only cannot both be true",
      record := none, appended := [], captures := [], archived := false,
      sessionCreated := false, transcribeAttempted := false, breakdownAttempted := false }
  else
    let r0 : RunRecord :=
      { session_id := session_id, raw_only := raw_only, clean_only := clean_only,
        status := "started", durations := [], transcription_method := none,
        breakdown_model := none, raw_chars := none, raw_words := none,
        clean_chars := none, clean_words := none, compression_ratio := none,
        error := none, archived_audio_path := none }
    match env.transcribe with
    | Except.error e => failPath env r0 e [] [] false true false
    | Except.ok (raw_text, method) =>
      let r1 := { r0 with
        durations := addKey r0.durations "transcription"
        transcription_method := some method }
      match env.saveRawTranscript with
      | Except.error e => failPath env r1 e [] [] false true false
      | Except.ok _ =>
        let r2 := { r1 with
          raw_chars := some raw_text.length
          raw_words := some (pyWords raw_text).length }
        if raw_only then
          match env.archiveAudio with
          | Except.error e => failPath env r2 e [] [] false true false
          | Except.ok dest =>
            let r3 := { r2 with
              archived_audio_path := some dest
              breakdown_model := some "raw_only"
              status := "success"
              durations := addKey r2.durations "total" }
            match env.writeSessionMeta with
            | Except.error e => failPath env r3 e [] [] true true false
            | Except.ok _ =>
              match env.appendMetrics with
              | Except.error e => failPath env r3 e [] [] true true false
              | Except.ok _ =>
                match env.logEvent with
                | Except.error e => failPath env r3 e [r3] [] true true false
                | Except.ok _ =>
                  { retval := Except.ok true, record := some r3, appended := [r3],
                    captures := [], archived := true, sessionCreated := true,
                    transcribeAttempted := true, breakdownAttempted := false }
        else
          match local_chat_completion env.localCheck env.retries "cleanup" env.cleanupBackend with
          | Except.error e => failPath env r2 e [] [] false true false
          | Except.ok clean_text =>
            let r3 := { r2 with
              durations := addKey r2.durations "cleanup"
              clean_chars := some clean_text.length
              clean_words := some (pyWords clean_text).length
              compression_ratio :=
                some (pyRound4 ((clean_text.length : Rat) / ((max 1 raw_text.length : Nat) : Rat))) }
            match env.writeCleanTranscript with
            | Except.error e => failPath env r3 e [] [] false true false
            | Except.ok _ =>
              if clean_only then
                let model_used := "skipped_clean_only"
                let breakdown := "_Skipped due to --clean-only mode._"
                let r4 := { r3 with breakdown_model := some model_used }
                captureAndFinish env r4 audio_name raw_text clean_text breakdown method model_used false
              else
                match env.breakdownTasks with
                | Except.error e => failPath env r3 e [] [] false true true
                | Except.ok (breakdown, model_used) =>
                  let r4 := { r3 with
                    durations := addKey r3.durations "breakdown"
                    breakdown_model := some model_used }
                  match env.writeBreakdown with
                  | Except.error e => failPath env r4 e [] [] false true true
                  | Except.ok _ =>
                    captureAndFinish env r4 audio_name raw_text clean_text breakdown method model_used true

/- ------------------------------------------------------------------
   process_audio.py : AudioProcessor._make_session_id
   ------------------------------------------------------------------ -/

/-- A character kept verbatim by the sanitizer: the class `[a-zA-Z0-9._-]`. -/
def goodChar (c : Char) : Bool :=
  ('a' ≤ c && c ≤ 'z') || ('A' ≤ c && c ≤ 'Z') || ('0' ≤ c && c ≤ '9') ||
    c == '.' || c == '_' || c == '-'

/-- Fuel-indexed scanner underlying `collapseBad`. -/
def collapseBadF : Nat → List Char → List Char
  | _, [] => []
  | 0, s => s
  | fuel + 1, c :: cs =>
    if goodChar c then c :: collapseBadF fuel cs
    else '-' :: collapseBadF fuel (cs.dropWhile (fun d => !goodChar d))

/-- `re.sub(r"[^a-zA-Z0-9._-]+", "-", s)`: each maximal run of characters
outside the class collapses to a single `'-'`. -/
def collapseBad (l : List Char) : List Char := collapseBadF l.length l

/-- Python `s.strip("-")`. -/
def stripDashes (l : List Char) : List Char :=
  ((l.dropWhile (fun c => c == '-')).reverse.dropWhile (fun c => c == '-')).reverse

/-- `AudioProcessor._make_session_id`: sanitize the stem
(`re.sub(...).strip("-").lower() or "audio"`) and prefix the
`%Y%m%d-%H%M%S` timestamp (passed in as an opaque string, since wall
clocks are outside the model). -/
def _make_session_id (timestamp stem : String) : String :=
  let base1 := String.mk ((stripDashes (collapseBad stem.toList)).map lowerChar)
  let base := if base1 = "" then "audio" else base1
  timestamp ++ "-" ++ base

/-- Modelled from the spec wording of the session-id derivation (claim
C9), with the run-collapse implemented as a right fold carrying a
"suffix begins inside a run" flag instead of the scanner of the source. -/
def specCollapseStep (c : Char) (acc : List Char × Bool) : List Char × Bool :=
  if goodChar c then (c :: acc.1, false)
  else if acc.2 then acc else ('-' :: acc.1, true)

/-- Spec-side collapse of bad-character runs to a single separator. -/
def specCollapse (l : List Char) : List Char :=
  (l.foldr specCollapseStep ([], false)).1

/-- Spec-side session id: timestamp prefix, then the stem with bad runs
collapsed to `'-'`, edge separators stripped, lowercased, defaulting to
`"audio"` when empty (claim C9's wording). -/
def specSessionId (timestamp stem : String) : String :=
  let t := String.mk ((stripDashes (specCollapse stem.toList)).map lowerChar)
  timestamp ++ "-" ++ (if t = "" then "audio" else t)

/- ------------------------------------------------------------------
   metrics_report.py
   ------------------------------------------------------------------ -/

/-- Python `/` on floats (modelled exactly on rationals): raises
`ZeroDivisionError` on a zero denominator. -/
def pyDiv (a b : Rat) : Except String Rat :=
  if b = 0 then Except.error "ZeroDivisionError" else Except.ok (a / b)

/-- `_avg(values)` from `metrics_report.py`:
`sum(values) / len(values) if values else 0.0`, with the division
modelled as the raising Python division. -/
def _avg (values : List Rat) : Except String Rat :=
  if values ≠ [] then pyDiv values.sum (values.length : Rat) else Except.ok 0

/-- One parsed row of `logs/metrics.jsonl` as `main` reads it. -/
structure MetricsRow where
  status : String
  raw_only : Bool
  durations : List (String × Rat)
  compression_ratio : Option Rat

/-- `r.get("durations_sec", {}).get(k, 0.0)`. -/
def rowDuration (r : MetricsRow) (k : String) : Rat :=
  ((r.durations.find? (fun e => e.1 == k)).map (fun e => e.2)).getD 0

/-- `k in r.get("durations_sec", {})`. -/
def rowHasDuration (r : MetricsRow) (k : String) : Bool :=
  (r.durations.find? (fun e => e.1 == k)).isSome

/-- The four value lists `main` aggregates over successful rows
(`metrics_report.py` lines 41-44). -/
def reportValueLists (rows : List MetricsRow) : List (List Rat) :=
  let success := rows.filter (fun r => r.status == "success")
  [success.map (fun r => rowDuration r "total"),
   (success.filter (fun r => rowHasDuration r "cleanup")).map (fun r => rowDuration r "cleanup"),
   (success.filter (fun r => rowHasDuration r "breakdown")).map (fun r => rowDuration r "breakdown"),
   (success.filter (fun r => r.compression_ratio.isSome)).map (fun r => r.compression_ratio.getD 0)]

/- ------------------------------------------------------------------
   Concrete environments used as witnesses and counterexamples
   ------------------------------------------------------------------ -/

instance : DecidableEq (Except String Bool) := fun a b =>
  match a, b with
  | Except.error x, Except.error y =>
    if h : x = y then isTrue (by rw [h]) else isFalse (fun hc => by cases hc; exact h rfl)
  | Except.ok x, Except.ok y =>
    if h : x = y then isTrue (by rw [h]) else isFalse (fun hc => by cases hc; exact h rfl)
  | Except.error _, Except.ok _ => isFalse (fun hc => by cases hc)
  | Except.ok _, Except.error _ => isFalse (fun hc => by cases hc)

/-- An environment in which every collaborator succeeds. -/
def envAllOk : Env :=
  { transcribe := Except.ok ("hello world this is a note", "whisper_local")
    saveRawTranscript := Except.ok ()
    localCheck := Except.ok ()
    retries := 2
    cleanupBackend := fun _ => LLMAttempt.response "hello world, cleaned"
    writeCleanTranscript := Except.ok ()
    breakdownTasks := Except.ok ("- [ ] do the thing (~10m) #quick", "local_llm")
    writeBreakdown := Except.ok ()
    appendCapture := Except.ok ()
    nowCapture := "2026-10-12 00:00"
    archiveAudio := Except.ok "voice.m4a"
    writeSessionMeta := Except.ok ()
    appendMetrics := Except.ok ()
    logEvent := Except.ok ()
    writeMetaOnFail := Except.ok ()
    appendMetricsOnFail := Except.ok () }

/-- Like `envAllOk` but the monthly event-log write raises after the
success-path metrics append has already happened. -/
def envLogFails : Env := { envAllOk with logEvent := Except.error "event log write failed" }

/-- Like `envAllOk` but every cleanup attempt raises. -/
def envCleanupFails : Env :=
  { envAllOk with cleanupBackend := fun n => LLMAttempt.exn ("connection refused " ++ toString n) }

/-- A local backend that fails on attempts 1 and 2 and succeeds on 3. -/
def backendFailFailOk : Nat → LLMAttempt := fun n =>
  if n ≤ 2 then LLMAttempt.exn ("boom" ++ toString n) else LLMAttempt.response "  result  "

/-- A local backend that fails on every attempt. -/
def backendAllFail : Nat → LLMAttempt := fun n => LLMAttempt.exn ("boom" ++ toString n)

/-- A 100-character raw transcript. -/
def raw100 : String := String.mk (List.replicate 100 'a')

/-- A 40-character cleaned transcript. -/
def clean40 : String := String.mk (List.replicate 40 'b')

/-- All-success environment whose raw text has 100 characters and whose
cleaned text has 40. -/
def envHundred : Env :=
  { envAllOk with
    transcribe := Except.ok (raw100, "whisper_local")
    cleanupBackend := fun _ => LLMAttempt.response clean40 }

/- ------------------------------------------------------------------
   Chunk model for the redaction round-trip analysis (claim C3)
   ------------------------------------------------------------------ -/

/-- The sensitive term of table entry `i` (in declaration order). -/
def termStr (i : Fin 5) : String := (ANONYMIZATION_MAP.get i).1

/-- The placeholder of table entry `i`. -/
def phStr (i : Fin 5) : String := (ANONYMIZATION_MAP.get i).2

/-- ASCII `A-Z`. -/
def isUpperA (c : Char) : Bool := decide ('A' ≤ c ∧ c ≤ 'Z')

/-- ASCII `a-z`. -/
def isLowerA (c : Char) : Bool := decide ('a' ≤ c ∧ c ≤ 'z')

/-- ASCII letter. -/
def isAlphaA (c : Char) : Bool := isUpperA c || isLowerA c

/-- A character that can interact with neither the terms (all ASCII
letters) nor the placeholder delimiters. -/
def neutralChar (c : Char) : Bool := !isAlphaA c && c != '[' && c != ']'

/-- A piece of input text for the round-trip law: inert separator text or
one exactly-cased sensitive term. -/
inductive Chunk
  | plain (s : String)
  | term (i : Fin 5)
deriving DecidableEq, Repr

/-- Chunks of the intermediate strings the codec passes produce: a term
already replaced by its placeholder becomes a `ph` chunk. -/
inductive MChunk
  | plain (s : String)
  | term (i : Fin 5)
  | ph (i : Fin 5)
deriving DecidableEq, Repr

def MChunk.render : MChunk → List Char
  | .plain s => s.toList
  | .term i => (termStr i).toList
  | .ph i => (phStr i).toList

def renderMs : List MChunk → List Char
  | [] => []
  | c :: cs => c.render ++ renderMs cs

/-- May this chunk list directly follow a term/placeholder chunk?  Yes
when it is empty or starts with a non-empty plain separator. -/
def sepOK : List MChunk → Bool
  | [] => true
  | .plain s :: _ => s != ""
  | .term _ :: _ => false
  | .ph _ :: _ => false

/-- Well-formed mixed chunk list: plain chunks are fully neutral, and a
term/placeholder chunk is followed by a non-empty plain separator (or
nothing). -/
def wfM : List MChunk → Bool
  | [] => true
  | .plain s :: rest => s.toList.all neutralChar && wfM rest
  | .term _ :: rest => sepOK rest && wfM rest
  | .ph _ :: rest => sepOK rest && wfM rest

def Chunk.toM : Chunk → MChunk
  | .plain s => .plain s
  | .term i => .term i

/-- The input text described by a chunk list. -/
def renderChunks (cs : List Chunk) : String := String.mk (renderMs (cs.map Chunk.toM))

/-- Well-formedness of an input chunk list. -/
def wfChunks (cs : List Chunk) : Bool := wfM (cs.map Chunk.toM)

/-- Effect of anonymization pass `k` on one chunk. -/
def mapTermToPh (k : Fin 5) : MChunk → MChunk
  | .term i => if i = k then .ph i else .term i
  | c => c

/-- Effect of deanonymization pass `k` on one chunk. -/
def mapPhToTerm (k : Fin 5) : MChunk → MChunk
  | .ph i => if i = k then .term i else .ph i
  | c => c

/-- Does the chunk list contain the term of entry `k`? -/
def hasTerm (k : Fin 5) (ms : List MChunk) : Bool :=
  ms.any (fun c => match c with | .term i => i = k | _ => false)

/-- Indices of the table entries found in the chunk list, in table
order — the insertion order of the reverse map. -/
def presentIdx (ms : List MChunk) : List (Fin 5) :=
  (List.finRange 5).filter (fun k => hasTerm k ms)

/-- Pointwise mismatch witness: some aligned position of `p` and `t`
compares false. -/
def hasMismatch (eqc : Char → Char → Bool) : List Char → List Char → Bool
  | [], _ => false
  | _ :: _, [] => false
  | p₀ :: ps, t₀ :: ts => !eqc p₀ t₀ || hasMismatch eqc ps ts

/-- Every non-empty suffix of `t` has an aligned mismatch with `p`: no
occurrence of `p` can start inside `t`, whatever follows `t`. -/
def blockedStrict (eqc : Char → Char → Bool) (p : List Char) : List Char → Bool
  | [] => true
  | t₀ :: ts => hasMismatch eqc p (t₀ :: ts) && blockedStrict eqc p ts

/-- Every non-empty suffix of `t` has an aligned mismatch or is shorter
than `p`: no occurrence of `p` can start inside `t`, provided what
follows `t` starts with a character no pattern character matches. -/
def blockedBy (eqc : Char → Char → Bool) (p : List Char) : List Char → Bool
  | [] => true
  | t₀ :: ts =>
    (hasMismatch eqc p (t₀ :: ts) || decide ((t₀ :: ts).length < p.length)) &&
      blockedBy eqc p ts

/-- Anonymization passes for the entries of `L`, in order. -/
def applyChunkCI (L : List (Fin 5)) (c : MChunk) : MChunk :=
  L.foldl (fun c k => mapTermToPh k c) c

/-- Deanonymization passes for the entries of `L`, in order. -/
def applyChunkEX (L : List (Fin 5)) (c : MChunk) : MChunk :=
  L.foldl (fun c k => mapPhToTerm k c) c

/-- Anonymization passes applied to a whole chunk list. -/
def foldMsCI (L : List (Fin 5)) (ms : List MChunk) : List MChunk :=
  L.foldl (fun ms k => ms.map (mapTermToPh k)) ms

/-- Deanonymization passes applied to a whole chunk list. -/
def foldMsEX (L : List (Fin 5)) (ms : List MChunk) : List MChunk :=
  L.foldl (fun ms k => ms.map (mapPhToTerm k)) ms

/- ==================================================================
   THEOREMS
   ================================================================== -/

theorem dropWhile_length_le (p : Char → Bool) (l : List Char) :
    (l.dropWhile p).length ≤ l.length := by
  induction l with
  | nil => simp [List.dropWhile]
  | cons c cs ih =>
    simp only [List.dropWhile]
    by_cases h : p c = true
    · simp only [h, List.length_cons]
      omega
    · simp only [h]
      simp

theorem replaceByF_fuel (eqc : Char → Char → Bool) (p r : List Char) :
    ∀ (fuel fuel' : Nat) (s : List Char), s.length ≤ fuel → s.length ≤ fuel' →
      replaceByF eqc p r fuel s = replaceByF eqc p r fuel' s := by
  intro fuel
  induction fuel with
  | zero =>
    intro fuel' s hs _
    have : s = [] := List.length_eq_zero.mp (Nat.le_zero.mp hs)
    subst this
    cases fuel' <;> rfl
  | succ f ih =>
    intro fuel' s hs hs'
    cases s with
    | nil => cases fuel' <;> rfl
    | cons c cs =>
      cases fuel' with
      | zero => exact absurd hs' (by simp)
      | succ f' =>
        simp only [replaceByF]
        by_cases h : matchAtBy eqc p (c :: cs) = true
        · simp only [h, if_true]
          have hd : (cs.drop (p.length - 1)).length ≤ f := by
            have := List.length_drop (p.length - 1) cs
            simp only [List.length_cons] at hs
            omega
          have hd' : (cs.drop (p.length - 1)).length ≤ f' := by
            have := List.length_drop (p.length - 1) cs
            simp only [List.length_cons] at hs'
            omega
          rw [ih f' _ hd hd']
        · simp only [h, if_false]
          have hc : cs.length ≤ f := by simp only [List.length_cons] at hs; omega
          have hc' : cs.length ≤ f' := by simp only [List.length_cons] at hs'; omega
          rw [ih f' cs hc hc']
          simp

theorem replaceBy_nil (eqc : Char → Char → Bool) (p r : List Char) :
    replaceBy eqc p r [] = [] := rfl

theorem replaceBy_cons (eqc : Char → Char → Bool) (p r : List Char) (c : Char) (cs : List Char) :
    replaceBy eqc p r (c :: cs) =
      if matchAtBy eqc p (c :: cs) then
        r ++ replaceBy eqc p r (cs.drop (p.length - 1))
      else
        c :: replaceBy eqc p r cs := by
  show replaceByF eqc p r (cs.length + 1) (c :: cs) = _
  simp only [replaceByF]
  by_cases h : matchAtBy eqc p (c :: cs) = true
  · simp only [h, if_true]
    rw [replaceByF_fuel eqc p r cs.length (cs.drop (p.length - 1)).length]
    · rfl
    · simp [List.length_drop]
    · exact Nat.le_refl _
  · simp only [h, if_false]
    rfl

/-- `_avg` never raises: helper shared by the report theorems. -/
theorem avg_total_aux (values : List Rat) :
    ∃ r, _avg values = Except.ok r ∧
      (values = [] → r = 0) ∧ (values ≠ [] → r = values.sum / (values.length : Rat)) := by
  by_cases h : values = []
  · subst h
    exact ⟨0, rfl, fun _ => rfl, fun hc => absurd rfl hc⟩
  · refine ⟨values.sum / (values.length : Rat), ?_, fun hc => absurd hc h, fun _ => rfl⟩
    have hlen : (values.length : Rat) ≠ 0 := by
      have : values.length ≠ 0 := fun hc => h (List.length_eq_zero.mp hc)
      exact_mod_cast this
    simp [_avg, h, pyDiv, hlen]

/-- C7: with `raw_only=true` and `clean_only=true`, `process` raises the
configuration `ValueError` before any stage runs: no session directory,
no transcription attempt, nothing appended to the metrics log or capture
log, and the source audio is not moved. -/
theorem C7_conflicting_flags_fail_fast (env : Env) (audio_name session_id : String) :
    process env audio_name session_id true true =
      { retval := Except.error "raw_only and clean_only cannot both be true",
        record := none, appended := [], captures := [], archived := false,
        sessionCreated := false, transcribeAttempted := false,
        breakdownAttempted := false } := rfl

/-- C10: the report's `_avg` helper is total — it returns `sum/len` on a
non-empty list and `0.0` on the empty list — so each of the four
aggregate averages `main` computes is defined (no `ZeroDivisionError`)
for every row multiset, in particular when there are no successful
runs. -/
theorem C10_avg_total (values : List Rat) (rows : List MetricsRow) :
    (∃ r, _avg values = Except.ok r ∧
      (values = [] → r = 0) ∧ (values ≠ [] → r = values.sum / (values.length : Rat))) ∧
    (∀ vs, vs ∈ reportValueLists rows → ∃ r, _avg vs = Except.ok r) := by
  refine ⟨avg_total_aux values, fun vs _ => ?_⟩
  obtain ⟨r, hr, -, -⟩ := avg_total_aux vs
  exact ⟨r, hr⟩

/-- Witness for C10 at concrete inputs: the empty list averages to `0`,
and `[1, 2]` averages to `3/2`. -/
theorem C10_avg_total_witness :
    _avg [] = Except.ok 0 ∧ _avg [1, 2] = Except.ok ((3 : Rat) / 2) := by
  obtain ⟨⟨r0, hr0, h0, -⟩, -⟩ := C10_avg_total [] []
  obtain ⟨⟨r1, hr1, -, hs⟩, -⟩ := C10_avg_total [1, 2] []
  constructor
  · rw [hr0, h0 rfl]
  · rw [hr1, hs (by decide)]
    norm_num

/- ----- retry-loop lemmas (llm.py) ----- -/

theorem attemptResult_error_msg (a : LLMAttempt) (e : String)
    (h : attemptResult a = Except.error e) : e = attemptErrMsg a := by
  cases a with
  | exn m =>
    simp only [attemptResult] at h
    cases h
    rfl
  | response c =>
    simp only [attemptResult] at h
    by_cases hc : pyStrip c = ""
    · simp only [hc, if_pos rfl] at h
      cases h
      rfl
    · simp only [if_neg hc] at h
      cases h

theorem attemptLoop_ok (backend : Nat → LLMAttempt) :
    ∀ (n start k : Nat) (c : String), k < n →
      (∀ i, i < k → ∃ e, attemptResult (backend (start + i)) = Except.error e) →
      attemptResult (backend (start + k)) = Except.ok c →
      attemptLoop backend start n = Except.ok c := by
  intro n
  induction n with
  | zero => intro start k c hk; omega
  | succ m ih =>
    intro start k c hk hfail hok
    cases m with
    | zero =>
      have hk0 : k = 0 := by omega
      subst hk0
      simpa only [attemptLoop, Nat.add_zero] using hok
    | succ m' =>
      cases k with
      | zero =>
        rw [Nat.add_zero] at hok
        simp only [attemptLoop, hok]
      | succ k' =>
        obtain ⟨e, he⟩ := hfail 0 (by omega)
        rw [Nat.add_zero] at he
        simp only [attemptLoop, he]
        refine ih (start + 1) k' c (by omega) (fun i hi => ?_) ?_
        · obtain ⟨e', he'⟩ := hfail (i + 1) (by omega)
          exact ⟨e', by rwa [show start + (i + 1) = start + 1 + i by omega] at he'⟩
        · rwa [show start + (k' + 1) = start + 1 + k' by omega] at hok

theorem attemptLoop_allfail (backend : Nat → LLMAttempt) :
    ∀ (n start : Nat), 1 ≤ n →
      (∀ i, i < n → ∃ e, attemptResult (backend (start + i)) = Except.error e) →
      attemptLoop backend start n = Except.error (attemptErrMsg (backend (start + n - 1))) := by
  intro n
  induction n with
  | zero => intro start h; omega
  | succ m ih =>
    intro start _ hfail
    cases m with
    | zero =>
      obtain ⟨e, he⟩ := hfail 0 (by omega)
      rw [Nat.add_zero] at he
      have : e = attemptErrMsg (backend start) := attemptResult_error_msg _ _ he
      subst this
      simpa only [attemptLoop] using he
    | succ m' =>
      obtain ⟨e, he⟩ := hfail 0 (by omega)
      rw [Nat.add_zero] at he
      simp only [attemptLoop, he]
      rw [ih (start + 1) (by omega) (fun i hi => by
        obtain ⟨e', he'⟩ := hfail (i + 1) (by omega)
        exact ⟨e', by rwa [show start + (i + 1) = start + 1 + i by omega] at he'⟩)]
      have harg : start + 1 + (m' + 1) - 1 = start + (m' + 1 + 1) - 1 := by omega
      rw [harg]

theorem local_chat_completion_success (retries : Nat) (op : String)
    (backend : Nat → LLMAttempt) (k : Nat) (c : String)
    (hk : k < retries + 1)
    (hprev : ∀ i, i < k → ∃ e, attemptResult (backend (i + 1)) = Except.error e)
    (hok : attemptResult (backend (k + 1)) = Except.ok c) :
    local_chat_completion (Except.ok ()) retries op backend = Except.ok c := by
  have hmax : max 1 (retries + 1) = retries + 1 := by omega
  simp only [local_chat_completion, hmax]
  rw [attemptLoop_ok backend (retries + 1) 1 k c hk
    (fun i hi => by
      obtain ⟨e, he⟩ := hprev i hi
      exact ⟨e, by rwa [show 1 + i = i + 1 by omega]⟩)
    (by rwa [show 1 + k = k + 1 by omega])]

theorem local_chat_completion_allfail (retries : Nat) (op : String)
    (backend : Nat → LLMAttempt)
    (hfail : ∀ i, 1 ≤ i → i ≤ retries + 1 → ∃ e, attemptResult (backend i) = Except.error e) :
    local_chat_completion (Except.ok ()) retries op backend =
      Except.error ("Local LLM " ++ op ++ " failed after " ++ toString (retries + 1) ++
        " attempts: " ++ attemptErrMsg (backend (retries + 1))) := by
  have hmax : max 1 (retries + 1) = retries + 1 := by omega
  simp only [local_chat_completion, hmax]
  rw [attemptLoop_allfail backend (retries + 1) 1 (by omega)
    (fun i hi => by
      obtain ⟨e, he⟩ := hfail (1 + i) (by omega) (by omega)
      exact ⟨e, he⟩)]
  have harg : 1 + (retries + 1) - 1 = retries + 1 := by omega
  rw [harg]

theorem str_append_ne_empty (x y : String) (hx : x ≠ "") : x ++ y ≠ "" := by
  intro h
  apply hx
  have hl := congrArg String.length h
  rw [String.length_append] at hl
  have h0 : String.length "" = 0 := rfl
  rw [h0] at hl
  have hx0 : x.length = 0 := by omega
  cases x with
  | mk data =>
    cases data with
    | nil => rfl
    | cons a l => simp [String.length] at hx0

/- ----- failPath / captureAndFinish helper lemmas ----- -/

theorem failPath_ok (env : Env) (r : RunRecord) (e : String)
    (a : List RunRecord) (caps : List Capture) (x y z : Bool)
    (hm : env.writeMetaOnFail = Except.ok ())
    (ha : env.appendMetricsOnFail = Except.ok ()) :
    failPath env r e a caps x y z =
      { retval := Except.ok false
        record := some { r with
          status := "failed"
          error := some e
          durations := addKey r.durations "total" }
        appended := a ++ [{ r with
          status := "failed"
          error := some e
          durations := addKey r.durations "total" }]
        captures := caps
        archived := x
        sessionCreated := true
        transcribeAttempted := y
        breakdownAttempted := z } := by
  simp only [failPath, hm, ha]

theorem failPath_record (env : Env) (r : RunRecord) (e : String)
    (a : List RunRecord) (caps : List Capture) (x y z : Bool) :
    (failPath env r e a caps x y z).record =
      some { r with
        status := "failed"
        error := some e
        durations := addKey r.durations "total" } := by
  unfold failPath
  cases env.writeMetaOnFail with
  | error m => rfl
  | ok u => cases env.appendMetricsOnFail with
    | error m => rfl
    | ok v => rfl

theorem captureAndFinish_record_compression (env : Env) (r4 : RunRecord)
    (an raw cl bd m mu : String) (bda : Bool) :
    ∃ r', (captureAndFinish env r4 an raw cl bd m mu bda).record = some r' ∧
      r'.compression_ratio = r4.compression_ratio := by
  unfold captureAndFinish
  cases env.appendCapture with
  | error e => exact ⟨_, failPath_record _ _ _ _ _ _ _ _, rfl⟩
  | ok u =>
    cases env.archiveAudio with
    | error e => exact ⟨_, failPath_record _ _ _ _ _ _ _ _, rfl⟩
    | ok dest =>
      cases env.writeSessionMeta with
      | error e => exact ⟨_, failPath_record _ _ _ _ _ _ _ _, rfl⟩
      | ok v =>
        cases env.appendMetrics with
        | error e => exact ⟨_, failPath_record _ _ _ _ _ _ _ _, rfl⟩
        | ok w =>
          cases env.logEvent with
          | error e => exact ⟨_, failPath_record _ _ _ _ _ _ _ _, rfl⟩
          | ok x => exact ⟨_, rfl, rfl⟩

/- ----- the claims ----- -/

/-- C4: with `retries = N` (so `N+1` attempts), a call whose backend fails
on a prefix of attempts and then yields non-empty stripped content
returns that content; when all `N+1` attempts fail, the call raises the
terminal error embedding the operation name and the last underlying
failure. -/
theorem C4_local_llm_retry (retries : Nat) (op : String) (backend : Nat → LLMAttempt) :
    (∀ k c, k < retries + 1 →
      (∀ i, i < k → ∃ e, attemptResult (backend (i + 1)) = Except.error e) →
      attemptResult (backend (k + 1)) = Except.ok c →
      local_chat_completion (Except.ok ()) retries op backend = Except.ok c) ∧
    ((∀ i, 1 ≤ i → i ≤ retries + 1 → ∃ e, attemptResult (backend i) = Except.error e) →
      local_chat_completion (Except.ok ()) retries op backend =
        Except.error ("Local LLM " ++ op ++ " failed after " ++ toString (retries + 1) ++
          " attempts: " ++ attemptErrMsg (backend (retries + 1)))) :=
  ⟨fun k c hk hprev hok => local_chat_completion_success retries op backend k c hk hprev hok,
   fun hfail => local_chat_completion_allfail retries op backend hfail⟩

/-- Witness for C4 with `retries = 2`: fail-fail-succeed returns the
stripped success content, and three failures raise the terminal error
wrapping the last failure. -/
theorem C4_local_llm_retry_witness :
    local_chat_completion (Except.ok ()) 2 "cleanup" backendFailFailOk = Except.ok "result" ∧
    local_chat_completion (Except.ok ()) 2 "cleanup" backendAllFail =
      Except.error "Local LLM cleanup failed after 3 attempts: boom3" := by
  constructor
  · exact (C4_local_llm_retry 2 "cleanup" backendFailFailOk).1 2 "result" (by omega)
      (fun i hi => ⟨"boom" ++ toString (i + 1), by interval_cases i <;> rfl⟩) rfl
  · have h := (C4_local_llm_retry 2 "cleanup" backendAllFail).2
      (fun i h1 h2 => ⟨"boom" ++ toString i, rfl⟩)
    rw [h]
    rfl

/-- C1: when transcription succeeds and the cleanup stage's generation
client raises terminally (every attempt fails), the single persisted
RunRecord has `status="failed"`, a non-empty error, a `transcription`
duration key but no `cleanup`/`breakdown` keys, the audio is not
archived, and `process` returns `False` instead of propagating. -/
theorem C1_cleanup_failure (env : Env) (audio_name session_id : String) (clean_only : Bool)
    (raw_text method : String)
    (htr : env.transcribe = Except.ok (raw_text, method))
    (hsave : env.saveRawTranscript = Except.ok ())
    (hcheck : env.localCheck = Except.ok ())
    (hfail : ∀ i, 1 ≤ i → i ≤ env.retries + 1 →
      ∃ e, attemptResult (env.cleanupBackend i) = Except.error e)
    (hm : env.writeMetaOnFail = Except.ok ())
    (ha : env.appendMetricsOnFail = Except.ok ()) :
    ∃ r, process env audio_name session_id false clean_only =
      { retval := Except.ok false
        record := some r
        appended := [r]
        captures := []
        archived := false
        sessionCreated := true
        transcribeAttempted := true
        breakdownAttempted := false } ∧
    r.status = "failed" ∧
    (∃ e, r.error = some e ∧ e ≠ "") ∧
    "transcription" ∈ r.durations ∧
    "cleanup" ∉ r.durations ∧ "breakdown" ∉ r.durations := by
  obtain ⟨etr, esv, eck, ert, ebk, ewc, ebd, ewb, eac, enw, ear, ewm, eam, elg, ewmf, eamf⟩ := env
  have htr' : etr = Except.ok (raw_text, method) := htr
  have hsave' : esv = Except.ok () := hsave
  have hcheck' : eck = Except.ok () := hcheck
  have hm' : ewmf = Except.ok () := hm
  have ha' : eamf = Except.ok () := ha
  subst htr' hsave' hcheck' hm' ha'
  have hcl := local_chat_completion_allfail ert "cleanup" ebk hfail
  simp only [process]
  rw [hcl]
  refine ⟨_, rfl, rfl, ⟨_, rfl, ?_⟩, ?_, ?_, ?_⟩
  · apply str_append_ne_empty
    apply str_append_ne_empty
    apply str_append_ne_empty
    apply str_append_ne_empty
    decide
  · show "transcription" ∈ addKey (addKey [] "transcription") "total"
    decide
  · show "cleanup" ∉ addKey (addKey [] "transcription") "total"
    decide
  · show "breakdown" ∉ addKey (addKey [] "transcription") "total"
    decide

/-- Witness for C1: a concrete environment whose local backend refuses
every connection. -/
theorem C1_cleanup_failure_witness :
    ∃ r, process envCleanupFails "voice.m4a" "sid" false false =
      { retval := Except.ok false
        record := some r
        appended := [r]
        captures := []
        archived := false
        sessionCreated := true
        transcribeAttempted := true
        breakdownAttempted := false } ∧
    r.status = "failed" ∧
    (∃ e, r.error = some e ∧ e ≠ "") ∧
    "transcription" ∈ r.durations ∧
    "cleanup" ∉ r.durations ∧ "breakdown" ∉ r.durations :=
  C1_cleanup_failure envCleanupFails "voice.m4a" "sid" false
    "hello world this is a note" "whisper_local" rfl rfl rfl
    (fun i _ _ => ⟨"connection refused " ++ toString i, rfl⟩) rfl rfl

/-- C2 counterexample: in an otherwise fully successful run whose
success-path metrics append has already happened, a failing event-log
write re-enters the `except` handler, which appends a second RunRecord —
so two records (one `success`, one `failed`) are persisted by a single
`process` invocation, refuting "exactly one RunRecord is appended". -/
theorem C2_counterexample :
    (process envLogFails "voice.m4a" "sid" false false).appended.length = 2 ∧
    (process envLogFails "voice.m4a" "sid" false false).appended.map
      (fun r => r.status) = ["success", "failed"] ∧
    (process envLogFails "voice.m4a" "sid" false false).retval = Except.ok false := by
  refine ⟨rfl, rfl, rfl⟩

/-- C2 amended: with valid flags, and provided the failure-path
persistence writes succeed and the success-path event-log write does not
fail after the metrics append, exactly one fully formed RunRecord with
terminal status `success` or `failed` is appended (records are never
updated in place — appends are the only mutation in the model). -/
theorem C2_one_record_appended (env : Env) (audio_name session_id : String)
    (raw_only clean_only : Bool)
    (hflags : ¬(raw_only = true ∧ clean_only = true))
    (hm : env.writeMetaOnFail = Except.ok ())
    (ha : env.appendMetricsOnFail = Except.ok ())
    (hlog : env.logEvent = Except.ok ()) :
    ∃ r, (process env audio_name session_id raw_only clean_only).appended = [r] ∧
      (r.status = "success" ∨ r.status = "failed") := by
  obtain ⟨etr, esv, eck, ert, ebk, ewc, ebd, ewb, eac, enw, ear, ewm, eam, elg, ewmf, eamf⟩ := env
  have hm' : ewmf = Except.ok () := hm
  have ha' : eamf = Except.ok () := ha
  have hlog' : elg = Except.ok () := hlog
  subst hm' ha' hlog'
  cases raw_only with
  | true =>
    cases clean_only with
    | true => exact absurd ⟨rfl, rfl⟩ hflags
    | false =>
      cases etr with
      | error e => exact ⟨_, rfl, Or.inr rfl⟩
      | ok pr =>
        obtain ⟨raw_text, method⟩ := pr
        cases esv with
        | error e => exact ⟨_, rfl, Or.inr rfl⟩
        | ok u =>
          cases ear with
          | error e => exact ⟨_, rfl, Or.inr rfl⟩
          | ok dest =>
            cases ewm with
            | error e => exact ⟨_, rfl, Or.inr rfl⟩
            | ok v =>
              cases eam with
              | error e => exact ⟨_, rfl, Or.inr rfl⟩
              | ok w => exact ⟨_, rfl, Or.inl rfl⟩
  | false =>
    cases etr with
    | error e => exact ⟨_, rfl, Or.inr rfl⟩
    | ok pr =>
      obtain ⟨raw_text, method⟩ := pr
      cases esv with
      | error e => exact ⟨_, rfl, Or.inr rfl⟩
      | ok u =>
        simp only [process]
        cases hcl : local_chat_completion eck ert "cleanup" ebk with
        | error e => exact ⟨_, rfl, Or.inr rfl⟩
        | ok clean_text =>
          cases ewc with
          | error e => exact ⟨_, rfl, Or.inr rfl⟩
          | ok v =>
            cases clean_only with
            | true =>
              cases eac with
              | error e => exact ⟨_, rfl, Or.inr rfl⟩
              | ok u2 =>
                cases ear with
                | error e => exact ⟨_, rfl, Or.inr rfl⟩
                | ok dest =>
                  cases ewm with
                  | error e => exact ⟨_, rfl, Or.inr rfl⟩
                  | ok v2 =>
                    cases eam with
                    | error e => exact ⟨_, rfl, Or.inr rfl⟩
                    | ok w => exact ⟨_, rfl, Or.inl rfl⟩
            | false =>
              cases ebd with
              | error e => exact ⟨_, rfl, Or.inr rfl⟩
              | ok pr2 =>
                obtain ⟨breakdown, model_used⟩ := pr2
                cases ewb with
                | error e => exact ⟨_, rfl, Or.inr rfl⟩
                | ok w =>
                  cases eac with
                  | error e => exact ⟨_, rfl, Or.inr rfl⟩
                  | ok u2 =>
                    cases ear with
                    | error e => exact ⟨_, rfl, Or.inr rfl⟩
                    | ok dest =>
                      cases ewm with
                      | error e => exact ⟨_, rfl, Or.inr rfl⟩
                      | ok v2 =>
                        cases eam with
                        | error e => exact ⟨_, rfl, Or.inr rfl⟩
                        | ok w2 => exact ⟨_, rfl, Or.inl rfl⟩

/-- Witness for the amended C2 at the all-success environment. -/
theorem C2_one_record_appended_witness :
    ∃ r, (process envAllOk "voice.m4a" "sid" false false).appended = [r] ∧
      (r.status = "success" ∨ r.status = "failed") :=
  C2_one_record_appended envAllOk "voice.m4a" "sid" false false
    (fun h => by cases h.1) rfl rfl rfl

/-- C6: in any non-raw-only run whose transcription and cleanup succeed
(in particular every successful non-raw-only run), the RunRecord's
compression ratio is the cleaned character count divided by the raw
character count floored at one, rounded to 4 decimals half-to-even as
Python `round` does. -/
theorem C6_compression_ratio (env : Env) (audio_name session_id : String)
    (clean_only : Bool) (raw_text method clean_text : String)
    (htr : env.transcribe = Except.ok (raw_text, method))
    (hsave : env.saveRawTranscript = Except.ok ())
    (hclean : local_chat_completion env.localCheck env.retries "cleanup" env.cleanupBackend =
      Except.ok clean_text) :
    ∃ r, (process env audio_name session_id false clean_only).record = some r ∧
      r.compression_ratio =
        some (pyRound4 ((clean_text.length : Rat) / ((max 1 raw_text.length : Nat) : Rat))) := by
  simp only [process, Bool.false_and, Bool.false_eq_true, if_false, htr, hsave, hclean]
  cases hwc : env.writeCleanTranscript with
  | error e => exact ⟨_, failPath_record _ _ _ _ _ _ _ _, rfl⟩
  | ok v =>
    cases clean_only with
    | true => exact captureAndFinish_record_compression env _ _ _ _ _ _ _ _
    | false =>
      cases hbd : env.breakdownTasks with
      | error e => exact ⟨_, failPath_record _ _ _ _ _ _ _ _, rfl⟩
      | ok pr2 =>
        obtain ⟨breakdown, model_used⟩ := pr2
        cases hwb : env.writeBreakdown with
        | error e => exact ⟨_, failPath_record _ _ _ _ _ _ _ _, rfl⟩
        | ok w => exact captureAndFinish_record_compression env _ _ _ _ _ _ _ _

/-- Witness for C6: raw text of 100 characters and cleaned text of 40
characters give a recorded compression ratio of exactly `0.4`. -/
theorem C6_compression_ratio_witness :
    (∃ r, (process envHundred "voice.m4a" "sid" false false).record = some r ∧
      r.compression_ratio =
        some (pyRound4 ((clean40.length : Rat) / ((max 1 raw100.length : Nat) : Rat)))) ∧
    pyRound4 ((clean40.length : Rat) / ((max 1 raw100.length : Nat) : Rat)) = 2 / 5 := by
  constructor
  · exact C6_compression_ratio envHundred "voice.m4a" "sid" false raw100 "whisper_local"
      clean40 rfl rfl rfl
  · have h1 : clean40.length = 40 := rfl
    have h2 : (max 1 raw100.length) = 100 := rfl
    rw [h1, h2]
    simp only [pyRound4, roundHalfEven]
    have h3 : ((40 : Nat) : Rat) / ((100 : Nat) : Rat) * 10000 = 4000 := by norm_num
    rw [h3]
    have h4 : Rat.floor (4000 : Rat) = 4000 := by
      rw [Rat.floor_def']
      norm_num
    rw [h4]
    norm_num

/-- C8: in a successful clean-only run the breakdown stage is never
entered (no backend client call), the RunRecord carries the
`skipped_clean_only` sentinel and no `breakdown` duration key, and the
appended capture entry's tasks text is exactly the fixed placeholder. -/
theorem C8_clean_only_skips_breakdown (env : Env) (audio_name session_id : String)
    (raw_text method clean_text dest : String)
    (htr : env.transcribe = Except.ok (raw_text, method))
    (hsave : env.saveRawTranscript = Except.ok ())
    (hclean : local_chat_completion env.localCheck env.retries "cleanup" env.cleanupBackend =
      Except.ok clean_text)
    (hwc : env.writeCleanTranscript = Except.ok ())
    (hcap : env.appendCapture = Except.ok ())
    (harch : env.archiveAudio = Except.ok dest)
    (hwm : env.writeSessionMeta = Except.ok ())
    (ham : env.appendMetrics = Except.ok ())
    (hlog : env.logEvent = Except.ok ()) :
    ∃ r, process env audio_name session_id false true =
      { retval := Except.ok true
        record := some r
        appended := [r]
        captures := [{ timestamp := env.nowCapture
                       audio := audio_name
                       raw := raw_text
                       clean := clean_text
                       breakdown := "_Skipped due to --clean-only mode._"
                       method := method
                       model := "skipped_clean_only" }]
        archived := true
        sessionCreated := true
        transcribeAttempted := true
        breakdownAttempted := false } ∧
    r.breakdown_model = some "skipped_clean_only" ∧
    r.status = "success" ∧
    "breakdown" ∉ r.durations := by
  simp only [process, Bool.false_and, Bool.false_eq_true, if_false, htr, hsave, hclean, hwc,
    captureAndFinish, hcap, harch, hwm, ham, hlog]
  refine ⟨_, rfl, rfl, rfl, ?_⟩
  simp [addKey]

/-- Witness for C8 at a concrete all-success environment. -/
theorem C8_clean_only_skips_breakdown_witness :
    ∃ r, process envAllOk "voice.m4a" "sid" false true =
      { retval := Except.ok true
        record := some r
        appended := [r]
        captures := [{ timestamp := "2026-10-12 00:00"
                       audio := "voice.m4a"
                       raw := "hello world this is a note"
                       clean := "hello world, cleaned"
                       breakdown := "_Skipped due to --clean-only mode._"
                       method := "whisper_local"
                       model := "skipped_clean_only" }]
        archived := true
        sessionCreated := true
        transcribeAttempted := true
        breakdownAttempted := false } ∧
    r.breakdown_model = some "skipped_clean_only" ∧
    r.status = "success" ∧
    "breakdown" ∉ r.durations :=
  C8_clean_only_skips_breakdown envAllOk "voice.m4a" "sid"
    "hello world this is a note" "whisper_local" "hello world, cleaned" "voice.m4a"
    rfl rfl rfl rfl rfl rfl rfl rfl rfl

/-- C5: the routing policy of `should_use_claude` equals its spec-side
restatement — false when the remote feature is disabled or no credential
exists, else true iff the whitespace word count exceeds 60 or the
lowercased text contains one of the eight fixed phrases (as listed by the
spec).  Determinism is immediate: the policy is a pure function of the
configuration and text. -/
theorem C5_routing_policy (cfg : LLMConfig) (text : String) :
    should_use_claude cfg text = specShouldUseRemote cfg text := by
  obtain ⟨u, hc⟩ := cfg
  cases u with
  | false => rfl
  | true =>
    cases hc with
    | false => rfl
    | true =>
      show (decide (60 < (pyWords text).length) ||
          claudePhrases.any (fun p => strContains (lowerStr text) p)) =
        (decide (60 < (pyWords text).length) ||
          specRemotePhrases.any (fun p => strContains (lowerStr text) p))
      simp only [claudePhrases, specRemotePhrases, List.any_cons, List.any_nil, Bool.or_false]
      generalize strContains (lowerStr text) "break down" = b1
      generalize strContains (lowerStr text) "step by step" = b2
      generalize strContains (lowerStr text) "what should i do" = b3
      generalize strContains (lowerStr text) ("what" ++ apos ++ "s the best way") = b4
      generalize strContains (lowerStr text) "plan" = b5
      generalize strContains (lowerStr text) "depends on" = b6
      generalize strContains (lowerStr text) "blocked by" = b7
      generalize strContains (lowerStr text) "sequence" = b8
      generalize decide (60 < (pyWords text).length) = d
      revert d b1 b2 b3 b4 b5 b6 b7 b8
      decide

/- ----- session-id sanitizer lemmas (C9) ----- -/

theorem collapseBadF_fuel :
    ∀ (fuel fuel' : Nat) (l : List Char), l.length ≤ fuel → l.length ≤ fuel' →
      collapseBadF fuel l = collapseBadF fuel' l := by
  intro fuel
  induction fuel with
  | zero =>
    intro fuel' l hl _
    have : l = [] := List.length_eq_zero.mp (Nat.le_zero.mp hl)
    subst this
    cases fuel' <;> rfl
  | succ f ih =>
    intro fuel' l hl hl'
    cases l with
    | nil => cases fuel' <;> rfl
    | cons c cs =>
      cases fuel' with
      | zero => exact absurd hl' (by simp)
      | succ f' =>
        simp only [collapseBadF]
        by_cases h : goodChar c = true
        · simp only [h, if_true]
          have hc : cs.length ≤ f := by simp only [List.length_cons] at hl; omega
          have hc' : cs.length ≤ f' := by simp only [List.length_cons] at hl'; omega
          rw [ih f' cs hc hc']
        · simp only [h, if_false]
          have hd := dropWhile_length_le (fun d => !goodChar d) cs
          have hc : (cs.dropWhile (fun d => !goodChar d)).length ≤ f := by
            simp only [List.length_cons] at hl
            omega
          have hc' : (cs.dropWhile (fun d => !goodChar d)).length ≤ f' := by
            simp only [List.length_cons] at hl'
            omega
          rw [ih f' _ hc hc']
          simp

theorem collapseBad_cons (c : Char) (cs : List Char) :
    collapseBad (c :: cs) =
      if goodChar c then c :: collapseBad cs
      else '-' :: collapseBad (cs.dropWhile (fun d => !goodChar d)) := by
  show collapseBadF (cs.length + 1) (c :: cs) = _
  simp only [collapseBadF]
  by_cases h : goodChar c = true
  · rw [if_pos h, if_pos h]
    rfl
  · rw [if_neg h, if_neg h]
    rw [collapseBadF_fuel cs.length (cs.dropWhile (fun d => !goodChar d)).length
      (cs.dropWhile (fun d => !goodChar d)) (dropWhile_length_le _ cs) (Nat.le_refl _)]
    rfl

theorem specCollapse_flag (l : List Char) :
    (l.foldr specCollapseStep ([], false)).2 =
      (match l with | [] => false | d :: _ => !goodChar d) := by
  cases l with
  | nil => rfl
  | cons d ds =>
    simp only [List.foldr_cons, specCollapseStep]
    by_cases h : goodChar d = true
    · simp [h]
    · simp only [h, if_false, Bool.not_eq_true']
      by_cases h2 : (ds.foldr specCollapseStep ([], false)).2 = true
      · simp [h2, h]
      · simp only [Bool.not_eq_true] at h2
        simp [h2, h]

theorem collapseBad_eq_specCollapse (l : List Char) : collapseBad l = specCollapse l := by
  induction l with
  | nil => rfl
  | cons c cs ih =>
    rw [collapseBad_cons]
    by_cases h : goodChar c = true
    · rw [if_pos h, ih]
      have hspec : specCollapse (c :: cs) = c :: specCollapse cs := by
        unfold specCollapse
        rw [List.foldr_cons]
        simp only [specCollapseStep]
        rw [if_pos h]
      rw [hspec]
    · rw [if_neg h]
      cases cs with
      | nil =>
        have hspec : specCollapse [c] = ['-'] := by
          unfold specCollapse
          simp only [List.foldr_cons, List.foldr_nil, specCollapseStep]
          rw [if_neg h]
          rfl
        rw [hspec]
        rfl
      | cons d ds =>
        by_cases hd : goodChar d = true
        · have hdrop : (d :: ds).dropWhile (fun x => !goodChar x) = d :: ds := by
            simp [List.dropWhile, hd]
          rw [hdrop, ih]
          have hflag : ((d :: ds).foldr specCollapseStep ([], false)).2 = false := by
            rw [specCollapse_flag]
            simp [hd]
          have hspec : specCollapse (c :: d :: ds) = '-' :: specCollapse (d :: ds) := by
            unfold specCollapse
            rw [List.foldr_cons (f := specCollapseStep) (b := ([], false)) (a := c)]
            simp only [specCollapseStep]
            rw [if_neg h, hflag]
            rfl
          rw [hspec]
        · have hdrop : (d :: ds).dropWhile (fun x => !goodChar x) = ds.dropWhile (fun x => !goodChar x) := by
            simp [List.dropWhile, hd]
          rw [hdrop]
          have hflag : ((d :: ds).foldr specCollapseStep ([], false)).2 = true := by
            rw [specCollapse_flag]
            simp [hd]
          have hspec : specCollapse (c :: d :: ds) = specCollapse (d :: ds) := by
            unfold specCollapse
            rw [List.foldr_cons (f := specCollapseStep) (b := ([], false)) (a := c)]
            simp only [specCollapseStep]
            rw [if_neg h, hflag]
            rfl
          rw [hspec, ← ih, collapseBad_cons, if_neg hd]

/-- C9: the session id derived by `_make_session_id` equals its spec-side
restatement: the second-granularity timestamp, a dash, then the filename
stem with each run of characters outside `[a-zA-Z0-9._-]` collapsed to a
single `'-'`, leading and trailing `'-'` stripped, lowercased, defaulting
to `"audio"` when empty. -/
theorem C9_session_id_sanitization (timestamp stem : String) :
    _make_session_id timestamp stem = specSessionId timestamp stem := by
  simp only [_make_session_id, specSessionId, collapseBad_eq_specCollapse]

/- ----- redaction codec round-trip machinery (C3) ----- -/

theorem lowEq_refl (a : Char) : lowEq a a = true := by
  simp [lowEq]

theorem matchAt_refl (eqc : Char → Char → Bool) (hrefl : ∀ a, eqc a a = true)
    (p rest : List Char) : matchAtBy eqc p (p ++ rest) = true := by
  induction p with
  | nil => rfl
  | cons p₀ ps ih => simp [matchAtBy, hrefl, ih]

theorem hasMismatch_matchAt_false (eqc : Char → Char → Bool) (rest : List Char) :
    ∀ (p t : List Char), hasMismatch eqc p t = true →
      matchAtBy eqc p (t ++ rest) = false := by
  intro p
  induction p with
  | nil => intro t h; simp [hasMismatch] at h
  | cons p₀ ps ih =>
    intro t h
    cases t with
    | nil => simp [hasMismatch] at h
    | cons t₀ ts =>
      simp only [hasMismatch, Bool.or_eq_true, Bool.not_eq_true'] at h
      simp only [List.cons_append, matchAtBy]
      rcases h with h | h
      · simp [h]
      · simp [ih ts h]

theorem short_matchAt_false (eqc : Char → Char → Bool) (rest : List Char) :
    ∀ (t p : List Char), t.length < p.length →
      (rest = [] ∨ ∃ c rs, rest = c :: rs ∧ ∀ pc ∈ p, eqc pc c = false) →
      matchAtBy eqc p (t ++ rest) = false := by
  intro t
  induction t with
  | nil =>
    intro p hlen hrest
    cases p with
    | nil => simp at hlen
    | cons p₀ ps =>
      rcases hrest with h | ⟨c, rs, hr, hall⟩
      · subst h
        rfl
      · subst hr
        simp only [List.nil_append, matchAtBy]
        simp [hall p₀ (List.mem_cons_self _ _)]
  | cons t₀ ts ih =>
    intro p hlen hrest
    cases p with
    | nil => simp at hlen
    | cons p₀ ps =>
      simp only [List.cons_append, matchAtBy]
      by_cases h : eqc p₀ t₀ = true
      · have hr' : rest = [] ∨ ∃ c rs, rest = c :: rs ∧ ∀ pc ∈ ps, eqc pc c = false := by
          rcases hrest with h' | ⟨c, rs, hr, hall⟩
          · exact Or.inl h'
          · exact Or.inr ⟨c, rs, hr, fun pc hm => hall pc (List.mem_cons_of_mem _ hm)⟩
        have hlen' : ts.length < ps.length := by
          simp only [List.length_cons] at hlen
          omega
        simp [h, ih ps hlen' hr']
      · simp [Bool.eq_false_iff.mpr h]

theorem skip_strict (eqc : Char → Char → Bool) (p r : List Char) :
    ∀ (t rest : List Char), blockedStrict eqc p t = true →
      replaceBy eqc p r (t ++ rest) = t ++ replaceBy eqc p r rest ∧
      occursBy eqc p (t ++ rest) = occursBy eqc p rest := by
  intro t
  induction t with
  | nil => intro rest _; exact ⟨rfl, rfl⟩
  | cons t₀ ts ih =>
    intro rest h
    simp only [blockedStrict, Bool.and_eq_true] at h
    obtain ⟨hmis, hb⟩ := h
    have hm : matchAtBy eqc p (t₀ :: (ts ++ rest)) = false := by
      have := hasMismatch_matchAt_false eqc rest p (t₀ :: ts) hmis
      rwa [List.cons_append] at this
    constructor
    · rw [List.cons_append, replaceBy_cons, if_neg (by simp [hm]), (ih rest hb).1]
      rfl
    · rw [List.cons_append]
      show (matchAtBy eqc p (t₀ :: (ts ++ rest)) || occursBy eqc p (ts ++ rest)) = _
      rw [hm, (ih rest hb).2]
      simp

theorem skip_bounded (eqc : Char → Char → Bool) (p r : List Char) :
    ∀ (t rest : List Char), blockedBy eqc p t = true →
      (rest = [] ∨ ∃ c rs, rest = c :: rs ∧ ∀ pc ∈ p, eqc pc c = false) →
      replaceBy eqc p r (t ++ rest) = t ++ replaceBy eqc p r rest ∧
      occursBy eqc p (t ++ rest) = occursBy eqc p rest := by
  intro t
  induction t with
  | nil => intro rest _ _; exact ⟨rfl, rfl⟩
  | cons t₀ ts ih =>
    intro rest h hrest
    simp only [blockedBy, Bool.and_eq_true, Bool.or_eq_true] at h
    obtain ⟨hdis, hb⟩ := h
    have hm : matchAtBy eqc p (t₀ :: (ts ++ rest)) = false := by
      rcases hdis with hmis | hshort
      · have := hasMismatch_matchAt_false eqc rest p (t₀ :: ts) hmis
        rwa [List.cons_append] at this
      · have := short_matchAt_false eqc rest (t₀ :: ts) p (by exact_mod_cast of_decide_eq_true hshort) hrest
        rwa [List.cons_append] at this
    constructor
    · rw [List.cons_append, replaceBy_cons, if_neg (by simp [hm]), (ih rest hb hrest).1]
      rfl
    · rw [List.cons_append]
      show (matchAtBy eqc p (t₀ :: (ts ++ rest)) || occursBy eqc p (ts ++ rest)) = _
      rw [hm, (ih rest hb hrest).2]
      simp

theorem consume_match (eqc : Char → Char → Bool) (p r rest : List Char)
    (hp : p ≠ []) (hrefl : ∀ a, eqc a a = true) :
    replaceBy eqc p r (p ++ rest) = r ++ replaceBy eqc p r rest ∧
    occursBy eqc p (p ++ rest) = true := by
  cases p with
  | nil => exact absurd rfl hp
  | cons p₀ ps =>
    have hm : matchAtBy eqc (p₀ :: ps) (p₀ :: (ps ++ rest)) = true := by
      have := matchAt_refl eqc hrefl (p₀ :: ps) rest
      rwa [List.cons_append] at this
    constructor
    · rw [List.cons_append, replaceBy_cons, if_pos hm]
      congr 1
      rw [show (p₀ :: ps).length - 1 = ps.length by simp]
      congr 1
      exact List.drop_left ps rest
    · rw [List.cons_append]
      show (matchAtBy eqc (p₀ :: ps) (p₀ :: (ps ++ rest)) || _) = true
      rw [hm]
      simp

theorem blockedStrict_of_neutral (eqc : Char → Char → Bool) (p₀ : Char) (ps : List Char)
    (hp₀ : ∀ c, neutralChar c = true → eqc p₀ c = false) :
    ∀ t, t.all neutralChar = true → blockedStrict eqc (p₀ :: ps) t = true := by
  intro t
  induction t with
  | nil => intro _; rfl
  | cons c cs ih =>
    intro h
    simp only [List.all_cons, Bool.and_eq_true] at h
    simp only [blockedStrict, Bool.and_eq_true]
    refine ⟨?_, ih h.2⟩
    simp [hasMismatch, hp₀ c h.1]

theorem lowerChar_of_not_upper (c : Char) (h : isUpperA c = false) : lowerChar c = c := by
  unfold lowerChar
  rw [if_neg]
  exact of_decide_eq_false h

theorem lowEq_alpha_neutral (a c : Char) (ha : isLowerA (lowerChar a) = true)
    (hc : neutralChar c = true) : lowEq a c = false := by
  have halpha : isAlphaA c = false := by
    simp only [neutralChar, Bool.and_eq_true, Bool.not_eq_true'] at hc
    exact hc.1.1
  have hcu : isUpperA c = false := by
    simp only [isAlphaA, Bool.or_eq_false_iff] at halpha
    exact halpha.1
  have hcl : isLowerA c = false := by
    simp only [isAlphaA, Bool.or_eq_false_iff] at halpha
    exact halpha.2
  have hfix : lowerChar c = c := lowerChar_of_not_upper c hcu
  unfold lowEq
  rw [hfix]
  have hne : lowerChar a ≠ c := by
    intro heq
    rw [heq] at ha
    rw [ha] at hcl
    cases hcl
  exact beq_eq_false_iff_ne.mpr hne

theorem lbrack_neq_neutral (c : Char) (hc : neutralChar c = true) :
    (('[' : Char) == c) = false := by
  simp only [neutralChar, Bool.and_eq_true, bne_iff_ne] at hc
  exact beq_eq_false_iff_ne.mpr (Ne.symm hc.1.2)

theorem term_ne_nil : ∀ k : Fin 5, (termStr k).toList ≠ [] := by decide

theorem ph_ne_nil : ∀ k : Fin 5, (phStr k).toList ≠ [] := by decide

theorem term_isEmpty_false : ∀ k : Fin 5, (termStr k).toList.isEmpty = false := by decide

theorem term_all_lower : ∀ k : Fin 5, ∀ pc ∈ (termStr k).toList,
    isLowerA (lowerChar pc) = true := by decide

theorem ph_head_lbrack : ∀ k : Fin 5, (phStr k).toList.head? = some '[' := by decide

theorem term_term_blockedBy : ∀ k j : Fin 5, ¬j = k →
    blockedBy lowEq (termStr k).toList (termStr j).toList = true := by decide

theorem term_ph_blockedStrict : ∀ k j : Fin 5,
    blockedStrict lowEq (termStr k).toList (phStr j).toList = true := by decide

theorem ph_term_blockedStrict : ∀ k j : Fin 5,
    blockedStrict (fun a b => a == b) (phStr k).toList (termStr j).toList = true := by decide

theorem ph_ph_blockedStrict : ∀ k j : Fin 5, ¬j = k →
    blockedStrict (fun a b => a == b) (phStr k).toList (phStr j).toList = true := by decide

/-- What follows a term/placeholder chunk in a well-formed list renders to
nothing or to something starting with a neutral character. -/
theorem rest_head_neutral (rest : List MChunk) (hsep : sepOK rest = true)
    (hwf : wfM rest = true) :
    renderMs rest = [] ∨ ∃ c rs, renderMs rest = c :: rs ∧ neutralChar c = true := by
  cases rest with
  | nil => exact Or.inl rfl
  | cons ch rest' =>
    cases ch with
    | plain s =>
      simp only [sepOK, bne_iff_ne] at hsep
      simp only [wfM, Bool.and_eq_true] at hwf
      cases hst : s.toList with
      | nil =>
        exfalso
        apply hsep
        cases s with
        | mk data =>
          have : data = [] := hst
          rw [this]
      | cons c cs =>
        refine Or.inr ⟨c, cs ++ renderMs rest', ?_, ?_⟩
        · show MChunk.render (.plain s) ++ renderMs rest' = _
          simp only [MChunk.render, hst]
          rfl
        · have := hwf.1
          rw [hst] at this
          simp only [List.all_cons, Bool.and_eq_true] at this
          exact this.1
    | term i => simp [sepOK] at hsep
    | ph i => simp [sepOK] at hsep

/-- The anonymization pass for entry `k` over a rendered well-formed chunk
list replaces exactly the `term k` chunks with `ph k` chunks, and the
pattern occurs in the rendering iff a `term k` chunk is present. -/
theorem ciPass (k : Fin 5) :
    ∀ ms, wfM ms = true →
      replaceBy lowEq (termStr k).toList (phStr k).toList (renderMs ms) =
        renderMs (ms.map (mapTermToPh k)) ∧
      occursBy lowEq (termStr k).toList (renderMs ms) = hasTerm k ms := by
  intro ms
  induction ms with
  | nil =>
    intro _
    refine ⟨rfl, ?_⟩
    show (termStr k).toList.isEmpty = hasTerm k []
    rw [term_isEmpty_false k]
    rfl
  | cons ch rest ih =>
    intro hwf
    cases ch with
    | plain s =>
      have hwf' : wfM rest = true := by
        simp only [wfM, Bool.and_eq_true] at hwf
        exact hwf.2
      have hall : s.toList.all neutralChar = true := by
        simp only [wfM, Bool.and_eq_true] at hwf
        exact hwf.1
      obtain ⟨p₀, ps, hp⟩ := List.exists_cons_of_ne_nil (term_ne_nil k)
      have hhead : isLowerA (lowerChar p₀) = true :=
        term_all_lower k p₀ (by rw [hp]; exact List.mem_cons_self _ _)
      have hblock : blockedStrict lowEq (termStr k).toList s.toList = true := by
        rw [hp]
        exact blockedStrict_of_neutral lowEq p₀ ps
          (fun c hc => lowEq_alpha_neutral p₀ c hhead hc) s.toList hall
      have hs := skip_strict lowEq (termStr k).toList (phStr k).toList
        s.toList (renderMs rest) hblock
      constructor
      · show replaceBy _ _ _ (s.toList ++ renderMs rest) = _
        rw [hs.1, (ih hwf').1]
        rfl
      · show occursBy _ _ (s.toList ++ renderMs rest) = _
        rw [hs.2, (ih hwf').2]
        rfl
    | term j =>
      have hsep : sepOK rest = true := by
        simp only [wfM, Bool.and_eq_true] at hwf
        exact hwf.1
      have hwf' : wfM rest = true := by
        simp only [wfM, Bool.and_eq_true] at hwf
        exact hwf.2
      by_cases hj : j = k
      · subst hj
        have hcons := consume_match lowEq (termStr j).toList (phStr j).toList
          (renderMs rest) (term_ne_nil j) lowEq_refl
        constructor
        · show replaceBy _ _ _ ((termStr j).toList ++ renderMs rest) = _
          rw [hcons.1, (ih hwf').1]
          rw [List.map_cons, show mapTermToPh j (MChunk.term j) = MChunk.ph j from by
            simp [mapTermToPh]]
          rfl
        · show occursBy _ _ ((termStr j).toList ++ renderMs rest) = _
          rw [hcons.2]
          simp [hasTerm, List.any_cons]
      · have hblock := term_term_blockedBy k j hj
        have hrest := rest_head_neutral rest hsep hwf'
        have hrest' : renderMs rest = [] ∨ ∃ c rs, renderMs rest = c :: rs ∧
            ∀ pc ∈ (termStr k).toList, lowEq pc c = false := by
          rcases hrest with h | ⟨c, rs, hr, hc⟩
          · exact Or.inl h
          · exact Or.inr ⟨c, rs, hr,
              fun pc hm => lowEq_alpha_neutral pc c (term_all_lower k pc hm) hc⟩
        have hs := skip_bounded lowEq (termStr k).toList (phStr k).toList
          (termStr j).toList (renderMs rest) hblock hrest'
        constructor
        · show replaceBy _ _ _ ((termStr j).toList ++ renderMs rest) = _
          rw [hs.1, (ih hwf').1]
          rw [List.map_cons, show mapTermToPh k (MChunk.term j) = MChunk.term j from by
            simp [mapTermToPh, hj]]
          rfl
        · show occursBy _ _ ((termStr j).toList ++ renderMs rest) = _
          rw [hs.2, (ih hwf').2]
          simp [hasTerm, List.any_cons, hj]
    | ph j =>
      have hwf' : wfM rest = true := by
        simp only [wfM, Bool.and_eq_true] at hwf
        exact hwf.2
      have hblock := term_ph_blockedStrict k j
      have hs := skip_strict lowEq (termStr k).toList (phStr k).toList
        (phStr j).toList (renderMs rest) hblock
      constructor
      · show replaceBy _ _ _ ((phStr j).toList ++ renderMs rest) = _
        rw [hs.1, (ih hwf').1]
        rfl
      · show occursBy _ _ ((phStr j).toList ++ renderMs rest) = _
        rw [hs.2, (ih hwf').2]
        rfl

/-- The deanonymization pass for entry `k` over a rendered well-formed
chunk list restores exactly the `ph k` chunks to `term k` chunks. -/
theorem exPass (k : Fin 5) :
    ∀ ms, wfM ms = true →
      replaceBy (fun a b => a == b) (phStr k).toList (termStr k).toList (renderMs ms) =
        renderMs (ms.map (mapPhToTerm k)) := by
  intro ms
  induction ms with
  | nil => intro _; rfl
  | cons ch rest ih =>
    intro hwf
    cases ch with
    | plain s =>
      have hwf' : wfM rest = true := by
        simp only [wfM, Bool.and_eq_true] at hwf
        exact hwf.2
      have hall : s.toList.all neutralChar = true := by
        simp only [wfM, Bool.and_eq_true] at hwf
        exact hwf.1
      obtain ⟨p₀, ps, hp⟩ := List.exists_cons_of_ne_nil (ph_ne_nil k)
      have hp₀ : p₀ = '[' := by
        have := ph_head_lbrack k
        rw [hp] at this
        simpa using this
      have hblock : blockedStrict (fun a b => a == b) (phStr k).toList s.toList = true := by
        rw [hp, hp₀]
        exact blockedStrict_of_neutral _ '[' ps
          (fun c hc => lbrack_neq_neutral c hc) s.toList hall
      have hs := skip_strict (fun a b => a == b) (phStr k).toList (termStr k).toList
        s.toList (renderMs rest) hblock
      show replaceBy _ _ _ (s.toList ++ renderMs rest) = _
      rw [hs.1, ih hwf']
      rfl
    | term j =>
      have hwf' : wfM rest = true := by
        simp only [wfM, Bool.and_eq_true] at hwf
        exact hwf.2
      have hblock := ph_term_blockedStrict k j
      have hs := skip_strict (fun a b => a == b) (phStr k).toList (termStr k).toList
        (termStr j).toList (renderMs rest) hblock
      show replaceBy _ _ _ ((termStr j).toList ++ renderMs rest) = _
      rw [hs.1, ih hwf']
      rfl
    | ph j =>
      have hwf' : wfM rest = true := by
        simp only [wfM, Bool.and_eq_true] at hwf
        exact hwf.2
      by_cases hj : j = k
      · subst hj
        have hcons := consume_match (fun a b => a == b) (phStr j).toList (termStr j).toList
          (renderMs rest) (ph_ne_nil j) (fun a => by simp)
        show replaceBy _ _ _ ((phStr j).toList ++ renderMs rest) = _
        rw [hcons.1, ih hwf']
        rw [List.map_cons, show mapPhToTerm j (MChunk.ph j) = MChunk.term j from by
          simp [mapPhToTerm]]
        rfl
      · have hblock := ph_ph_blockedStrict k j hj
        have hs := skip_strict (fun a b => a == b) (phStr k).toList (termStr k).toList
          (phStr j).toList (renderMs rest) hblock
        show replaceBy _ _ _ ((phStr j).toList ++ renderMs rest) = _
        rw [hs.1, ih hwf']
        rw [List.map_cons, show mapPhToTerm k (MChunk.ph j) = MChunk.ph j from by
          simp [mapPhToTerm, hj]]
        rfl

theorem sepOK_map_term (k : Fin 5) (rest : List MChunk) (h : sepOK rest = true) :
    sepOK (rest.map (mapTermToPh k)) = true := by
  cases rest with
  | nil => rfl
  | cons c cs =>
    cases c with
    | plain s => exact h
    | term i => simp [sepOK] at h
    | ph i => simp [sepOK] at h

theorem sepOK_map_ph (k : Fin 5) (rest : List MChunk) (h : sepOK rest = true) :
    sepOK (rest.map (mapPhToTerm k)) = true := by
  cases rest with
  | nil => rfl
  | cons c cs =>
    cases c with
    | plain s => exact h
    | term i => simp [sepOK] at h
    | ph i => simp [sepOK] at h

theorem wfM_mapTermToPh (k : Fin 5) :
    ∀ ms, wfM ms = true → wfM (ms.map (mapTermToPh k)) = true := by
  intro ms
  induction ms with
  | nil => intro _; rfl
  | cons c cs ih =>
    intro h
    cases c with
    | plain s =>
      rw [List.map_cons, show mapTermToPh k (MChunk.plain s) = MChunk.plain s from rfl]
      simp only [wfM, Bool.and_eq_true] at h ⊢
      exact ⟨h.1, ih h.2⟩
    | term i =>
      rw [List.map_cons]
      simp only [wfM, Bool.and_eq_true] at h
      by_cases hik : i = k
      · rw [show mapTermToPh k (MChunk.term i) = MChunk.ph i from by simp [mapTermToPh, hik]]
        simp only [wfM, Bool.and_eq_true]
        exact ⟨sepOK_map_term k cs h.1, ih h.2⟩
      · rw [show mapTermToPh k (MChunk.term i) = MChunk.term i from by simp [mapTermToPh, hik]]
        simp only [wfM, Bool.and_eq_true]
        exact ⟨sepOK_map_term k cs h.1, ih h.2⟩
    | ph i =>
      rw [List.map_cons, show mapTermToPh k (MChunk.ph i) = MChunk.ph i from rfl]
      simp only [wfM, Bool.and_eq_true] at h ⊢
      exact ⟨sepOK_map_term k cs h.1, ih h.2⟩

theorem wfM_mapPhToTerm (k : Fin 5) :
    ∀ ms, wfM ms = true → wfM (ms.map (mapPhToTerm k)) = true := by
  intro ms
  induction ms with
  | nil => intro _; rfl
  | cons c cs ih =>
    intro h
    cases c with
    | plain s =>
      rw [List.map_cons, show mapPhToTerm k (MChunk.plain s) = MChunk.plain s from rfl]
      simp only [wfM, Bool.and_eq_true] at h ⊢
      exact ⟨h.1, ih h.2⟩
    | term i =>
      rw [List.map_cons, show mapPhToTerm k (MChunk.term i) = MChunk.term i from rfl]
      simp only [wfM, Bool.and_eq_true] at h ⊢
      exact ⟨sepOK_map_ph k cs h.1, ih h.2⟩
    | ph i =>
      rw [List.map_cons]
      simp only [wfM, Bool.and_eq_true] at h
      by_cases hik : i = k
      · rw [show mapPhToTerm k (MChunk.ph i) = MChunk.term i from by simp [mapPhToTerm, hik]]
        simp only [wfM, Bool.and_eq_true]
        exact ⟨sepOK_map_ph k cs h.1, ih h.2⟩
      · rw [show mapPhToTerm k (MChunk.ph i) = MChunk.ph i from by simp [mapPhToTerm, hik]]
        simp only [wfM, Bool.and_eq_true]
        exact ⟨sepOK_map_ph k cs h.1, ih h.2⟩

theorem hasTerm_map_ne (k j : Fin 5) (hjk : ¬j = k) :
    ∀ ms, hasTerm j (ms.map (mapTermToPh k)) = hasTerm j ms := by
  intro ms
  induction ms with
  | nil => rfl
  | cons c cs ih =>
    cases c with
    | plain s =>
      rw [List.map_cons, show mapTermToPh k (MChunk.plain s) = MChunk.plain s from rfl]
      simp only [hasTerm, List.any_cons] at ih ⊢
      rw [ih]
    | term i =>
      rw [List.map_cons]
      by_cases hik : i = k
      · rw [show mapTermToPh k (MChunk.term i) = MChunk.ph i from by simp [mapTermToPh, hik]]
        simp only [hasTerm, List.any_cons] at ih ⊢
        rw [ih]
        have hij : ¬i = j := by
          subst hik
          exact fun h => hjk h.symm
        have : decide (i = j) = false := decide_eq_false hij
        simp [this]
      · rw [show mapTermToPh k (MChunk.term i) = MChunk.term i from by simp [mapTermToPh, hik]]
        simp only [hasTerm, List.any_cons] at ih ⊢
        rw [ih]
    | ph i =>
      rw [List.map_cons, show mapTermToPh k (MChunk.ph i) = MChunk.ph i from rfl]
      simp only [hasTerm, List.any_cons] at ih ⊢
      rw [ih]

theorem map_id_of_not_hasTerm (k : Fin 5) :
    ∀ ms, hasTerm k ms = false → ms.map (mapTermToPh k) = ms := by
  intro ms
  induction ms with
  | nil => intro _; rfl
  | cons c cs ih =>
    intro h
    simp only [hasTerm, List.any_cons, Bool.or_eq_false_iff] at h
    rw [List.map_cons, ih h.2]
    cases c with
    | plain s => rfl
    | term i =>
      have hik : ¬i = k := by
        intro he
        rw [show (match MChunk.term i with
          | MChunk.term i => decide (i = k)
          | _ => false) = decide (i = k) from rfl] at h
        rw [he] at h
        simp at h
      rw [show mapTermToPh k (MChunk.term i) = MChunk.term i from by simp [mapTermToPh, hik]]
    | ph i => rfl

theorem hasTerm_of_mem (i : Fin 5) (ms : List MChunk) (h : MChunk.term i ∈ ms) :
    hasTerm i ms = true := by
  induction ms with
  | nil => cases h
  | cons c cs ih =>
    rcases List.mem_cons.mp h with he | hm
    · rw [← he]
      simp [hasTerm, List.any_cons]
    · simp only [hasTerm, List.any_cons, Bool.or_eq_true]
      exact Or.inr (ih hm)

theorem applyChunkCI_plain (L : List (Fin 5)) (s : String) :
    applyChunkCI L (MChunk.plain s) = MChunk.plain s := by
  induction L with
  | nil => rfl
  | cons k L' ih => exact ih

theorem applyChunkEX_plain (L : List (Fin 5)) (s : String) :
    applyChunkEX L (MChunk.plain s) = MChunk.plain s := by
  induction L with
  | nil => rfl
  | cons k L' ih => exact ih

theorem applyChunkEX_term (L : List (Fin 5)) (i : Fin 5) :
    applyChunkEX L (MChunk.term i) = MChunk.term i := by
  induction L with
  | nil => rfl
  | cons k L' ih => exact ih

theorem applyChunkEX_ph_mem (i : Fin 5) :
    ∀ L : List (Fin 5), i ∈ L → applyChunkEX L (MChunk.ph i) = MChunk.term i := by
  intro L
  induction L with
  | nil => intro h; cases h
  | cons k L' ih =>
    intro h
    by_cases hk : i = k
    · show applyChunkEX L' (mapPhToTerm k (MChunk.ph i)) = _
      rw [show mapPhToTerm k (MChunk.ph i) = MChunk.term i from by simp [mapPhToTerm, hk]]
      exact applyChunkEX_term L' i
    · show applyChunkEX L' (mapPhToTerm k (MChunk.ph i)) = _
      rw [show mapPhToTerm k (MChunk.ph i) = MChunk.ph i from by simp [mapPhToTerm, hk]]
      exact ih (by rcases List.mem_cons.mp h with he | hm; exacts [absurd he hk, hm])

theorem applyChunkCI_term_all : ∀ i : Fin 5,
    applyChunkCI (List.finRange 5) (MChunk.term i) = MChunk.ph i := by decide

theorem foldMsCI_eq_map : ∀ (L : List (Fin 5)) (ms : List MChunk),
    foldMsCI L ms = ms.map (applyChunkCI L) := by
  intro L
  induction L with
  | nil =>
    intro ms
    show ms = ms.map (fun c => c)
    rw [List.map_id']
  | cons k L' ih =>
    intro ms
    show foldMsCI L' (ms.map (mapTermToPh k)) = _
    rw [ih (ms.map (mapTermToPh k)), List.map_map]
    rfl

theorem foldMsEX_eq_map : ∀ (L : List (Fin 5)) (ms : List MChunk),
    foldMsEX L ms = ms.map (applyChunkEX L) := by
  intro L
  induction L with
  | nil =>
    intro ms
    show ms = ms.map (fun c => c)
    rw [List.map_id']
  | cons k L' ih =>
    intro ms
    show foldMsEX L' (ms.map (mapPhToTerm k)) = _
    rw [ih (ms.map (mapPhToTerm k)), List.map_map]
    rfl

theorem wfM_foldMsCI : ∀ (L : List (Fin 5)) (ms : List MChunk),
    wfM ms = true → wfM (foldMsCI L ms) = true := by
  intro L
  induction L with
  | nil => intro ms h; exact h
  | cons k L' ih =>
    intro ms h
    exact ih (ms.map (mapTermToPh k)) (wfM_mapTermToPh k ms h)

theorem list_map_id_of_mem {α : Type} (f : α → α) :
    ∀ l : List α, (∀ a ∈ l, f a = a) → l.map f = l := by
  intro l
  induction l with
  | nil => intro _; rfl
  | cons a l' ih =>
    intro h
    rw [List.map_cons, h a (List.mem_cons_self _ _), ih (fun b hb => h b (List.mem_cons_of_mem _ hb))]

/-- `anonymize` as a fold over the table indices. -/
theorem anonymize_eq_fold_idx (text : String) :
    anonymize text = (List.finRange 5).foldl
      (fun acc k =>
        if occursBy lowEq (termStr k).toList acc.1.toList then
          (String.mk (replaceBy lowEq (termStr k).toList (phStr k).toList acc.1.toList),
           acc.2 ++ [(phStr k, termStr k)])
        else acc) (text, []) := by
  have hmap : ANONYMIZATION_MAP = (List.finRange 5).map (fun k => (termStr k, phStr k)) := by
    decide
  unfold anonymize
  rw [hmap, List.foldl_map]

/-- `deanonymize` with an index-shaped reverse map, as a fold over the
indices. -/
theorem deanonymize_eq_fold_idx (text : String) (L : List (Fin 5)) :
    deanonymize text (L.map (fun k => (phStr k, termStr k))) =
      L.foldl (fun s k =>
        String.mk (replaceBy (fun a b => a == b) (phStr k).toList (termStr k).toList s.toList))
        text := by
  unfold deanonymize
  rw [List.foldl_map]

/-- Invariant of the anonymization fold over a rendered well-formed chunk
list: the text stays a rendering (terms replaced by placeholders pass by
pass) and the reverse map collects exactly the present entries, in table
order. -/
theorem anonFold_inv :
    ∀ (L : List (Fin 5)) (ms : List MChunk) (acc2 : List (String × String)),
      wfM ms = true → L.Nodup →
      L.foldl (fun acc k =>
          if occursBy lowEq (termStr k).toList acc.1.toList then
            (String.mk (replaceBy lowEq (termStr k).toList (phStr k).toList acc.1.toList),
             acc.2 ++ [(phStr k, termStr k)])
          else acc)
        (String.mk (renderMs ms), acc2) =
      (String.mk (renderMs (foldMsCI L ms)),
       acc2 ++ (L.filter (fun k => hasTerm k ms)).map (fun k => (phStr k, termStr k))) := by
  intro L
  induction L with
  | nil =>
    intro ms acc2 _ _
    simp [foldMsCI]
  | cons k L' ih =>
    intro ms acc2 hwf hnd
    have hnd' : L'.Nodup := (List.nodup_cons.mp hnd).2
    have hkL : k ∉ L' := (List.nodup_cons.mp hnd).1
    rw [List.foldl_cons]
    have hocc : occursBy lowEq (termStr k).toList (String.mk (renderMs ms)).toList =
        hasTerm k ms := (ciPass k ms hwf).2
    by_cases hb : occursBy lowEq (termStr k).toList (String.mk (renderMs ms)).toList = true
    · have hk : hasTerm k ms = true := by rw [← hocc]; exact hb
      rw [if_pos hb]
      have hrepl : String.mk (replaceBy lowEq (termStr k).toList (phStr k).toList
          (String.mk (renderMs ms)).toList) =
          String.mk (renderMs (ms.map (mapTermToPh k))) :=
        congrArg String.mk (ciPass k ms hwf).1
      rw [hrepl,
        ih (ms.map (mapTermToPh k)) (acc2 ++ [(phStr k, termStr k)])
          (wfM_mapTermToPh k ms hwf) hnd']
      have hfilter : L'.filter (fun j => hasTerm j (ms.map (mapTermToPh k))) =
          L'.filter (fun j => hasTerm j ms) :=
        List.filter_congr (fun j hj => hasTerm_map_ne k j (fun h => hkL (h ▸ hj)) ms)
      rw [hfilter, List.filter_cons_of_pos (p := fun j => hasTerm j ms) (a := k) hk,
        List.map_cons, List.append_assoc]
      rfl
    · have hk : hasTerm k ms = false := by rw [← hocc]; exact Bool.eq_false_iff.mpr hb
      rw [if_neg hb, ih ms acc2 hwf hnd']
      have hms : ms.map (mapTermToPh k) = ms := map_id_of_not_hasTerm k ms hk
      have hfold : foldMsCI (k :: L') ms = foldMsCI L' ms := by
        show foldMsCI L' (ms.map (mapTermToPh k)) = foldMsCI L' ms
        rw [hms]
      rw [hfold, List.filter_cons_of_neg (p := fun j => hasTerm j ms) (a := k) (by simp [hk])]

/-- Invariant of the deanonymization fold over a rendered well-formed
chunk list. -/
theorem deanonFold_inv :
    ∀ (L : List (Fin 5)) (ms : List MChunk), wfM ms = true →
      L.foldl (fun s k =>
        String.mk (replaceBy (fun a b => a == b) (phStr k).toList (termStr k).toList s.toList))
        (String.mk (renderMs ms)) =
      String.mk (renderMs (foldMsEX L ms)) := by
  intro L
  induction L with
  | nil => intro ms _; rfl
  | cons k L' ih =>
    intro ms hwf
    rw [List.foldl_cons]
    have hrepl : String.mk (replaceBy (fun a b => a == b) (phStr k).toList (termStr k).toList
        (String.mk (renderMs ms)).toList) =
        String.mk (renderMs (ms.map (mapPhToTerm k))) :=
      congrArg String.mk (exPass k ms hwf)
    rw [hrepl, ih (ms.map (mapPhToTerm k)) (wfM_mapPhToTerm k ms hwf)]
    rfl

/-- Restoring the present entries over the fully anonymized chunk list
recovers the original chunks (which come from input chunks, so contain no
`ph` chunk). -/
theorem foldMsEX_restore (msC : List MChunk)
    (hms : ∀ c ∈ msC, (∃ s, c = MChunk.plain s) ∨ (∃ i, c = MChunk.term i)) :
    foldMsEX (presentIdx msC) (foldMsCI (List.finRange 5) msC) = msC := by
  rw [foldMsCI_eq_map, foldMsEX_eq_map, List.map_map]
  apply list_map_id_of_mem
  intro c hc
  rcases hms c hc with ⟨s, hs⟩ | ⟨i, hi⟩
  · subst hs
    show applyChunkEX _ (applyChunkCI _ (MChunk.plain s)) = _
    rw [applyChunkCI_plain, applyChunkEX_plain]
  · subst hi
    show applyChunkEX _ (applyChunkCI _ (MChunk.term i)) = _
    rw [applyChunkCI_term_all i]
    apply applyChunkEX_ph_mem
    simp only [presentIdx, List.mem_filter]
    exact ⟨List.mem_finRange i, by simp [hasTerm_of_mem i msC hc]⟩

/-- C3 counterexample: the table satisfies the claim's proviso (no
sensitive term is a substring of its own placeholder), yet the round trip
is not the identity on `"anthropic"`: anonymization matches
case-insensitively while deanonymization restores the table's canonical
casing, so the round trip returns `"Anthropic"`. -/
theorem C3_roundtrip_counterexample :
    (ANONYMIZATION_MAP.all
      (fun e => !occursBy (fun a b => a == b) e.1.toList e.2.toList)) = true ∧
    deanonymize (anonymize "anthropic").1 (anonymize "anthropic").2 = "Anthropic" ∧
    deanonymize (anonymize "anthropic").1 (anonymize "anthropic").2 ≠ "anthropic" := by
  refine ⟨by decide, by decide, by decide⟩

/-- C3 amended: the round trip `deanonymize ∘ anonymize` is the identity
on every text assembled from exactly-cased sensitive terms and neutral
separator text (no ASCII letters, no square brackets; a non-empty
separator between consecutive terms).  The counterexample forces the
exact-casing requirement, and texts already containing placeholder-like
bracketed fragments must be excluded as well, which the neutral-separator
form guarantees. -/
theorem C3_roundtrip_on_chunks (cs : List Chunk) (hwf : wfChunks cs = true) :
    deanonymize (anonymize (renderChunks cs)).1 (anonymize (renderChunks cs)).2 =
      renderChunks cs := by
  have hwfm : wfM (cs.map Chunk.toM) = true := hwf
  have h1 : anonymize (renderChunks cs) =
      (String.mk (renderMs (foldMsCI (List.finRange 5) (cs.map Chunk.toM))),
       [] ++ ((List.finRange 5).filter (fun k => hasTerm k (cs.map Chunk.toM))).map
         (fun k => (phStr k, termStr k))) := by
    rw [anonymize_eq_fold_idx]
    exact anonFold_inv (List.finRange 5) (cs.map Chunk.toM) [] hwfm (List.nodup_finRange 5)
  rw [h1]
  show deanonymize _ ((presentIdx (cs.map Chunk.toM)).map (fun k => (phStr k, termStr k))) = _
  rw [deanonymize_eq_fold_idx]
  rw [deanonFold_inv (presentIdx (cs.map Chunk.toM)) (foldMsCI (List.finRange 5) (cs.map Chunk.toM))
    (wfM_foldMsCI (List.finRange 5) (cs.map Chunk.toM) hwfm)]
  rw [foldMsEX_restore (cs.map Chunk.toM) (by
    intro c hc
    obtain ⟨c0, hc0, hc0m⟩ := List.mem_map.mp hc
    cases c0 with
    | plain s => exact Or.inl ⟨s, hc0m ▸ rfl⟩
    | term i => exact Or.inr ⟨i, hc0m ▸ rfl⟩)]
  rfl

/-- Witness for the amended C3: a concrete chunked text containing two
differently-indexed terms with neutral separators round-trips to itself. -/
theorem C3_roundtrip_on_chunks_witness :
    wfChunks [Chunk.plain "1: ", Chunk.term 0, Chunk.plain " + ", Chunk.term 4,
      Chunk.plain "!"] = true ∧
    deanonymize
      (anonymize (renderChunks [Chunk.plain "1: ", Chunk.term 0, Chunk.plain " + ",
        Chunk.term 4, Chunk.plain "!"])).1
      (anonymize (renderChunks [Chunk.plain "1: ", Chunk.term 0, Chunk.plain " + ",
        Chunk.term 4, Chunk.plain "!"])).2 =
      renderChunks [Chunk.plain "1: ", Chunk.term 0, Chunk.plain " + ", Chunk.term 4,
        Chunk.plain "!"] :=
  ⟨by decide,
   C3_roundtrip_on_chunks
     [Chunk.plain "1: ", Chunk.term 0, Chunk.plain " + ", Chunk.term 4, Chunk.plain "!"]
     (by decide)⟩

end VoiceTrace
